import Mathlib

/-!
# Verification of the ai-tutorial/typescript-examples retrieval utilities

Shallow embedding of the small, self-contained algorithms of the repository:
the chunking utilities (`src/module2/chunking_methods.ts`), the BM25 retriever
(`src/module2/bm25_retrieval.ts`), the two reciprocal-rank-fusion helpers
(`src/module2/search_hybrid.ts` and `src/rag/cross_encoder_reranking.ts`),
the production chunking pipeline (`ProductionChunkingPipeline` /
`DocumentChunk`), the script entry-point error handling, and the request
issuance order of `rerankWithCrossEncoder`.

Conventions of the embedding:
* Texts are `List Char`; JS `String.prototype.slice` on in-range indices is
  `(l.drop start).take (stop - start)`.
* JS numbers appearing here are exact rationals (`ℚ`); `Math.log` is kept
  abstract as a parameter `mlog : ℚ → ℚ` since none of the verified claims
  depends on its values.
* JS `Array.prototype.sort` with comparator `(a, b) => b.score - a.score` is
  (since ES2019) a stable descending sort, whose result is uniquely
  determined; it is embedded as a stable insertion sort `sortByKeyDesc`.
* JS objects / `Map`s used as score accumulators are insertion-ordered
  association lists.
* Loops with no structural termination argument (the `while` loops of the
  chunkers) are embedded with explicit fuel plus a position sequence that
  expresses (non-)termination of the source loop.
-/

namespace TsExamples

/-! ## JS string primitives -/

/-- JS `\s` for the ASCII whitespace characters that occur in the corpus:
space, tab, line feed, vertical tab, form feed, carriage return. -/
def isSpaceChar (c : Char) : Bool :=
  c = ' ' || c = '\t' || c = '\n' || c = Char.ofNat 11 || c = Char.ofNat 12 || c = '\r'

/-- JS `\w`: ASCII letters, digits and underscore. -/
def isWordChar (c : Char) : Bool :=
  c.isAlpha || c.isDigit || c = '_'

/-- JS `String.prototype.split(/\s+/)`: the fields between maximal whitespace
runs, keeping empty boundary fields (`" a".split` has a leading `""`,
`"a "` a trailing `""`, and `""` splits to `[""]`). `acc` is the current
field, reversed. -/
def splitWsGo (acc : List Char) : List Char → List (List Char)
  | [] => [acc.reverse]
  | c :: cs =>
    if isSpaceChar c then
      acc.reverse :: splitWsGo [] (cs.dropWhile isSpaceChar)
    else
      splitWsGo (c :: acc) cs
termination_by l => l.length
decreasing_by
  · simpa using Nat.lt_succ_of_le (List.dropWhile_sublist isSpaceChar).length_le
  · simp

/-- JS `text.split(/\s+/)`. -/
def splitWs (l : List Char) : List (List Char) := splitWsGo [] l

/-- `tokenize` from `BM25Retriever`
(`src/module2/bm25_retrieval.ts`, lines 94–99):
lowercase, delete the characters matching `[^\w\s]`, split on whitespace,
drop empty tokens. -/
def tokenize (l : List Char) : List (List Char) :=
  (splitWs ((l.map Char.toLower).filter fun c => isWordChar c || isSpaceChar c)).filter
    fun t => t.length > 0

/-- JS `text.slice(start, stop)` for `0 ≤ start ≤ stop` (out-of-range `stop`
is clamped by `take`). -/
def jsSlice (l : List Char) (start stop : Nat) : List Char :=
  (l.drop start).take (stop - start)

/-! ## `fixedSizeChunking` (`src/module2/chunking_methods.ts`, lines 11–31)

```
const chunks: string[] = [];
let start = 0;
while (start < text.length) {
    const end = start + chunkSize;
    chunks.push(text.slice(start, end));
    start += chunkSize - overlap;
}
```

The loop has no structural termination argument (with `overlap ≥ chunkSize`
it never advances), so it is embedded with fuel; `fixedPosSeq` is the exact
sequence of values of `start`, and termination of the source loop means some
`start` reaches `text.length`. -/

/-- The value of `start` after `n` iterations of the `fixedSizeChunking`
loop (`start += chunkSize - overlap`, stated on `Nat` where the claims put
`overlap < chunkSize` so the step is positive). -/
def fixedPosSeq (len chunkSize overlap : Nat) : Nat → Nat
  | 0 => 0
  | n + 1 =>
    let p := fixedPosSeq len chunkSize overlap n
    if p < len then p + (chunkSize - overlap) else p

/-- The `fixedSizeChunking` loop terminates: `start` eventually reaches the
end of the text. -/
def fixedTerminates (len chunkSize overlap : Nat) : Prop :=
  ∃ n, len ≤ fixedPosSeq len chunkSize overlap n

/-- The loop body of `fixedSizeChunking`, with fuel. -/
def fixedChunksGo (text : List Char) (chunkSize overlap : Nat) :
    Nat → Nat → List (List Char)
  | 0, _ => []
  | fuel + 1, start =>
    if start < text.length then
      jsSlice text start (start + chunkSize) ::
        fixedChunksGo text chunkSize overlap fuel (start + (chunkSize - overlap))
    else []

/-- `fixedSizeChunking(text, chunkSize, overlap)`; `text.length` iterations
are enough fuel whenever the step `chunkSize - overlap` is positive. -/
def fixedSizeChunking (text : List Char) (chunkSize overlap : Nat) : List (List Char) :=
  fixedChunksGo text chunkSize overlap text.length 0

/-- Index formula for the `fixedSizeChunking` loop: with a positive step and
fuel at least `text.length - start`, the `i`-th chunk produced from `start`
is `text.slice(start + i*step, start + i*step + chunkSize)`, and a chunk at
index `i` exists exactly when `start + i*step < text.length`. -/
theorem fixedChunksGo_spec (text : List Char) (cs ov : Nat) (hstep : 0 < cs - ov) :
    ∀ fuel start, text.length - start ≤ fuel →
      ∀ i, ((i < (fixedChunksGo text cs ov fuel start).length) ↔
              start + i * (cs - ov) < text.length) ∧
        (fixedChunksGo text cs ov fuel start).getD i [] =
          (if start + i * (cs - ov) < text.length then
            jsSlice text (start + i * (cs - ov)) (start + i * (cs - ov) + cs) else []) := by
  intro fuel
  induction fuel with
  | zero =>
    intro start hf i
    have hls : text.length ≤ start := by omega
    have hns : ¬ start + i * (cs - ov) < text.length := by omega
    simp [fixedChunksGo, hns]
  | succ fuel ih =>
    intro start hf i
    by_cases hs : start < text.length
    · rw [fixedChunksGo, if_pos hs]
      cases i with
      | zero =>
        constructor
        · simpa using hs
        · simp [hs]
      | succ i =>
        have hf' : text.length - (start + (cs - ov)) ≤ fuel := by omega
        have harith : start + (cs - ov) + i * (cs - ov) = start + (i + 1) * (cs - ov) := by
          ring
        have h1 := (ih (start + (cs - ov)) hf' i).1
        have h2 := (ih (start + (cs - ov)) hf' i).2
        rw [harith] at h1 h2
        constructor
        · simpa [Nat.succ_lt_succ_iff] using h1
        · simpa using h2
    · rw [fixedChunksGo, if_neg hs]
      have hns : ¬ start + i * (cs - ov) < text.length := by omega
      simp [hns]

/-- The values of `start` in `fixedSizeChunking` either pass the end of the
text or grow at least linearly. -/
theorem fixedPosSeq_progress (len cs ov : Nat) (hstep : 0 < cs - ov) :
    ∀ n, len ≤ fixedPosSeq len cs ov n ∨ n ≤ fixedPosSeq len cs ov n := by
  intro n
  induction n with
  | zero => right; exact Nat.le_refl 0
  | succ n ih =>
    by_cases hp : fixedPosSeq len cs ov n < len
    · rcases ih with h | h
      · exact absurd hp (by omega)
      · right
        rw [fixedPosSeq, if_pos hp]
        omega
    · left
      rw [fixedPosSeq, if_neg hp]
      omega

/-- C6 (counterexample): the claim "every chunk except possibly the last has
exactly chunkSize characters" is false. For `text = "abcdefghij"`,
`chunkSize = 5`, `overlap = 4` (within the claimed range `0 < chunkSize`,
`0 ≤ overlap < chunkSize`), `fixedSizeChunking` produces 10 chunks and chunk
index 7 — not the last one — is `"hij"`, of length 3 ≠ 5. -/
theorem fixedSizeChunking_claim_false :
    0 < 5 ∧ 4 < 5 ∧
      7 + 1 < (fixedSizeChunking "abcdefghij".toList 5 4).length ∧
      ((fixedSizeChunking "abcdefghij".toList 5 4).getD 7 []).length ≠ 5 := by
  refine ⟨by decide, by decide, ?_, ?_⟩ <;> decide

/-- C6 (amended): for every text, `chunkSize > 0` and `0 ≤ overlap <
chunkSize`, `fixedSizeChunking` terminates, a chunk exists at index `i`
exactly when `i * (chunkSize - overlap) < text.length`, the `i`-th chunk
equals `text.slice(i*(chunkSize-overlap), i*(chunkSize-overlap)+chunkSize)`,
every chunk whose slice window ends within the text has exactly `chunkSize`
characters, and a full-size chunk shares exactly `overlap` characters with
its successor (its last `overlap` characters are the successor's first
`overlap` characters). -/
theorem fixedSizeChunking_spec (text : List Char) (cs ov : Nat) (hov : ov < cs) :
    fixedTerminates text.length cs ov ∧
    (∀ i, (i < (fixedSizeChunking text cs ov).length ↔ i * (cs - ov) < text.length)) ∧
    (∀ i, i < (fixedSizeChunking text cs ov).length →
      (fixedSizeChunking text cs ov).getD i [] =
        jsSlice text (i * (cs - ov)) (i * (cs - ov) + cs)) ∧
    (∀ i, i * (cs - ov) + cs ≤ text.length →
      ((fixedSizeChunking text cs ov).getD i []).length = cs) ∧
    (∀ i, i + 1 < (fixedSizeChunking text cs ov).length →
      ((fixedSizeChunking text cs ov).getD i []).length = cs →
      ((fixedSizeChunking text cs ov).getD i []).drop (cs - ov) =
        ((fixedSizeChunking text cs ov).getD (i + 1) []).take ov) := by
  have hstep : 0 < cs - ov := by omega
  have hspec := fixedChunksGo_spec text cs ov hstep text.length 0 (by omega)
  have hmem : ∀ i, i < (fixedSizeChunking text cs ov).length ↔
      i * (cs - ov) < text.length := by
    intro i
    simpa using (hspec i).1
  have hval : ∀ i, (fixedSizeChunking text cs ov).getD i [] =
      (if i * (cs - ov) < text.length then
        jsSlice text (i * (cs - ov)) (i * (cs - ov) + cs) else []) := by
    intro i
    simpa using (hspec i).2
  refine ⟨?_, hmem, ?_, ?_, ?_⟩
  · rcases fixedPosSeq_progress text.length cs ov hstep text.length with h | h
    · exact ⟨text.length, h⟩
    · exact ⟨text.length, h⟩
  · intro i hi
    rw [hval i, if_pos ((hmem i).mp hi)]
  · intro i hi
    have hlt : i * (cs - ov) < text.length := by omega
    rw [hval i, if_pos hlt]
    simp [jsSlice]
    omega
  · intro i hi hfull
    have hi1 : (i + 1) * (cs - ov) < text.length := (hmem (i + 1)).mp hi
    have hi0 : i * (cs - ov) < text.length := (hmem i).mp (by omega)
    rw [hval i, if_pos hi0, hval (i + 1), if_pos hi1]
    simp only [jsSlice]
    rw [show i * (cs - ov) + cs - i * (cs - ov) = cs by omega]
    rw [show (i + 1) * (cs - ov) + cs - (i + 1) * (cs - ov) = cs by omega]
    rw [List.drop_take, List.drop_drop, List.take_take]
    rw [show cs - (cs - ov) = ov by omega]
    rw [show min ov cs = ov by omega]
    rw [show i * (cs - ov) + (cs - ov) = (i + 1) * (cs - ov) by ring]

/-- Witness for `fixedSizeChunking_spec` at `text = "abcd"`, `chunkSize = 2`,
`overlap = 1`. -/
theorem fixedSizeChunking_spec_witness :
    1 < 2 ∧
    (fixedTerminates "abcd".toList.length 2 1 ∧
    (∀ i, (i < (fixedSizeChunking "abcd".toList 2 1).length ↔
      i * (2 - 1) < "abcd".toList.length)) ∧
    (∀ i, i < (fixedSizeChunking "abcd".toList 2 1).length →
      (fixedSizeChunking "abcd".toList 2 1).getD i [] =
        jsSlice "abcd".toList (i * (2 - 1)) (i * (2 - 1) + 2)) ∧
    (∀ i, i * (2 - 1) + 2 ≤ "abcd".toList.length →
      ((fixedSizeChunking "abcd".toList 2 1).getD i []).length = 2) ∧
    (∀ i, i + 1 < (fixedSizeChunking "abcd".toList 2 1).length →
      ((fixedSizeChunking "abcd".toList 2 1).getD i []).length = 2 →
      ((fixedSizeChunking "abcd".toList 2 1).getD i []).drop (2 - 1) =
        ((fixedSizeChunking "abcd".toList 2 1).getD (i + 1) []).take 1)) :=
  ⟨by decide, fixedSizeChunking_spec "abcd".toList 2 1 (by decide)⟩

/-! ## `semanticChunking` (`src/module2/chunking_methods.ts`, lines 33–76)

```
const separators = ["\n\n", "\n", ". ", " ", ""];
const chunks: string[] = [];
let currentPos = 0;
while (currentPos < text.length) {
    let bestSplit = currentPos + chunkSize;
    for (const sep of separators) {
        const searchPos = text.lastIndexOf(sep, currentPos + chunkSize);
        if (searchPos > currentPos) {
            bestSplit = sep === "" ? currentPos + chunkSize : searchPos + sep.length;
            break;
        }
    }
    const chunk = text.slice(currentPos, bestSplit);
    if (chunk) chunks.push(chunk);
    currentPos = bestSplit - chunkOverlap;
    if (currentPos < 0) currentPos = 0;
}
```
-/

/-- Largest index `i ≤ bound` at which `sep` occurs in `text`
(`List.isPrefixOf sep (text.drop i)`), scanning downward from `bound`. -/
def lastIndexOfAux (text sep : List Char) : Nat → Option Nat
  | 0 => if sep.isPrefixOf text then some 0 else none
  | i + 1 =>
    if sep.isPrefixOf (text.drop (i + 1)) then some (i + 1)
    else lastIndexOfAux text sep i

/-- JS `text.lastIndexOf(sep, fromIndex)`: the search start is clamped to
`text.length`; `none` plays the role of JS's `-1`. The empty separator
matches everywhere, so it yields `min fromIndex text.length`, as in JS. -/
def lastIndexOf (text sep : List Char) (fromIndex : Nat) : Option Nat :=
  lastIndexOfAux text sep (min fromIndex text.length)

/-- The `for (const sep of separators)` loop of `semanticChunking`:
the first separator whose last occurrence at or before
`currentPos + chunkSize` lies strictly after `currentPos` decides
`bestSplit`; the default is `currentPos + chunkSize`. -/
def bestSplitFor (text : List Char) (currentPos chunkSize : Nat) :
    List (List Char) → Nat
  | [] => currentPos + chunkSize
  | sep :: rest =>
    match lastIndexOf text sep (currentPos + chunkSize) with
    | some p =>
      if currentPos < p then
        (if sep = [] then currentPos + chunkSize else p + sep.length)
      else bestSplitFor text currentPos chunkSize rest
    | none => bestSplitFor text currentPos chunkSize rest

/-- The separator list of `semanticChunking`: paragraph break, line break,
sentence end, word boundary, character fallback. -/
def semSeparators : List (List Char) :=
  [['\n', '\n'], ['\n'], ['.', ' '], [' '], []]

/-- `bestSplit` for one iteration of the `semanticChunking` loop. -/
def semBestSplit (text : List Char) (currentPos chunkSize : Nat) : Nat :=
  bestSplitFor text currentPos chunkSize semSeparators

/-- The next value of `currentPos`: `bestSplit - chunkOverlap`, clamped at 0
(truncated `Nat` subtraction is exactly JS's `if (currentPos < 0)
currentPos = 0`). -/
def semNextPos (text : List Char) (chunkSize chunkOverlap currentPos : Nat) : Nat :=
  semBestSplit text currentPos chunkSize - chunkOverlap

/-- The value of `currentPos` after `n` iterations of the `semanticChunking`
loop. -/
def semPosSeq (text : List Char) (chunkSize chunkOverlap : Nat) : Nat → Nat
  | 0 => 0
  | n + 1 =>
    let p := semPosSeq text chunkSize chunkOverlap n
    if p < text.length then semNextPos text chunkSize chunkOverlap p else p

/-- The `semanticChunking` loop terminates: `currentPos` eventually reaches
the end of the text. -/
def semTerminates (text : List Char) (chunkSize chunkOverlap : Nat) : Prop :=
  ∃ n, text.length ≤ semPosSeq text chunkSize chunkOverlap n

/-- The `semanticChunking` loop body, with fuel. -/
def semChunksGo (text : List Char) (chunkSize chunkOverlap : Nat) :
    Nat → Nat → List (List Char)
  | 0, _ => []
  | fuel + 1, currentPos =>
    if currentPos < text.length then
      let bestSplit := semBestSplit text currentPos chunkSize
      let chunk := jsSlice text currentPos bestSplit
      let rest := semChunksGo text chunkSize chunkOverlap fuel (bestSplit - chunkOverlap)
      if chunk = [] then rest else chunk :: rest
    else []

/-- `semanticChunking(text, chunkSize, chunkOverlap)` up to `fuel` loop
iterations. -/
def semanticChunking (text : List Char) (chunkSize chunkOverlap fuel : Nat) :
    List (List Char) :=
  semChunksGo text chunkSize chunkOverlap fuel 0

/-- C3 (counterexample): `semanticChunking` does not terminate for every
`chunkSize > 0` and `chunkOverlap ≥ 0`. On `text = "ab cdefghijklmnop"`,
`chunkSize = 10`, `chunkOverlap = 5`, the loop finds the space at index 2,
sets `bestSplit = 3`, steps `currentPos` back to `max(0, 3 - 5) = 0` and
repeats forever: `currentPos` is 0 after every iteration and never reaches
the end of the text. -/
theorem semanticChunking_claim_false :
    0 < 10 ∧ ¬ semTerminates "ab cdefghijklmnop".toList 10 5 := by
  refine ⟨by decide, ?_⟩
  rintro ⟨n, hn⟩
  have hzero : ∀ m, semPosSeq "ab cdefghijklmnop".toList 10 5 m = 0 := by
    intro m
    induction m with
    | zero => rfl
    | succ m ih =>
      rw [semPosSeq, ih]
      decide
  rw [hzero n] at hn
  revert hn
  decide

/-- The document that `exampleSemantic` in `chunking_methods.ts` passes to
`semanticChunking(semanticDoc, 100)` (with the default
`chunkOverlap = 200`). -/
def semanticDocExample : String :=
  "\n        # Introduction\n        RAG combines retrieval and generation.\n\n        ## How It Works\n        First, relevant documents are retrieved.\n        Then, an LLM generates based on retrieved context.\n\n        ## Benefits\n        - Grounds responses in source documents\n        - Reduces hallucinations\n        - Enables source citation\n    "

set_option maxRecDepth 4000 in
/-- The repository's own demo hangs: `exampleSemantic` calls
`semanticChunking(semanticDoc, 100)`, leaving `chunkOverlap` at its default
200 > 100, so `currentPos` is pulled back to 0 after every iteration and
the loop never terminates (it pushes the same first chunk forever). -/
theorem semanticChunking_example_hangs :
    ¬ semTerminates semanticDocExample.toList 100 200 := by
  rintro ⟨n, hn⟩
  have hzero : ∀ m, semPosSeq semanticDocExample.toList 100 200 m = 0 := by
    intro m
    induction m with
    | zero => rfl
    | succ m ih =>
      rw [semPosSeq, ih]
      decide
  rw [hzero n] at hn
  revert hn
  decide

/-- `bestSplit` always lies strictly beyond `currentPos` when
`chunkSize > 0`: the default is `currentPos + chunkSize`, the empty
separator also yields `currentPos + chunkSize`, and a non-empty separator is
only taken at an index strictly after `currentPos`. -/
theorem bestSplitFor_gt (text : List Char) (currentPos chunkSize : Nat)
    (hcs : 0 < chunkSize) :
    ∀ seps, currentPos < bestSplitFor text currentPos chunkSize seps := by
  intro seps
  induction seps with
  | nil => simp [bestSplitFor]; omega
  | cons sep rest ih =>
    rw [bestSplitFor]
    cases lastIndexOf text sep (currentPos + chunkSize) with
    | none => exact ih
    | some p =>
      simp only
      by_cases hp : currentPos < p
      · rw [if_pos hp]
        by_cases hsep : sep = ([] : List Char)
        · rw [if_pos hsep]; omega
        · rw [if_neg hsep]; omega
      · rw [if_neg hp]; exact ih

/-- Once `currentPos` has passed the end of the text the loop body produces
nothing, whatever the fuel. -/
theorem semChunksGo_of_ge (text : List Char) (cs co start : Nat)
    (hs : ¬ start < text.length) :
    ∀ fuel, semChunksGo text cs co fuel start = [] := by
  intro fuel
  cases fuel with
  | zero => rfl
  | succ fuel => rw [semChunksGo, if_neg hs]

/-- With zero overlap the `semanticChunking` result is fuel-insensitive once
the fuel covers `text.length - start` iterations. -/
theorem semChunksGo_stable (text : List Char) (chunkSize : Nat) (hcs : 0 < chunkSize) :
    ∀ f₁ f₂ start, text.length - start ≤ f₁ → text.length - start ≤ f₂ →
      semChunksGo text chunkSize 0 f₁ start = semChunksGo text chunkSize 0 f₂ start := by
  intro f₁
  induction f₁ with
  | zero =>
    intro f₂ start h1 h2
    have hs : ¬ start < text.length := by omega
    rw [semChunksGo_of_ge text chunkSize 0 start hs, semChunksGo_of_ge text chunkSize 0 start hs]
  | succ f₁ ih =>
    intro f₂ start h1 h2
    by_cases hs : start < text.length
    · have hbs : start < semBestSplit text start chunkSize :=
        bestSplitFor_gt text start chunkSize hcs semSeparators
      cases f₂ with
      | zero => omega
      | succ f₂ =>
        simp only [semChunksGo, if_pos hs]
        have hrec : semChunksGo text chunkSize 0 f₁ (semBestSplit text start chunkSize - 0) =
            semChunksGo text chunkSize 0 f₂ (semBestSplit text start chunkSize - 0) :=
          ih f₂ (semBestSplit text start chunkSize - 0) (by omega) (by omega)
        rw [hrec]
    · rw [semChunksGo_of_ge text chunkSize 0 start hs, semChunksGo_of_ge text chunkSize 0 start hs]

/-- C3 (amended): for every text and every `chunkSize > 0`, `semanticChunking`
with `chunkOverlap = 0` terminates (its loop position eventually reaches the
end of the text) and returns one well-defined finite chunk list:
`text.length` iterations of fuel are always enough, and any larger fuel
yields the same list. (With `chunkOverlap > 0` the loop need not terminate.) -/
theorem semanticChunking_no_overlap_terminates (text : List Char) (chunkSize : Nat)
    (hcs : 0 < chunkSize) :
    semTerminates text chunkSize 0 ∧
    ∀ fuel, text.length ≤ fuel →
      semanticChunking text chunkSize 0 fuel =
        semanticChunking text chunkSize 0 text.length := by
  constructor
  · have hprog : ∀ n, text.length ≤ semPosSeq text chunkSize 0 n ∨
        n ≤ semPosSeq text chunkSize 0 n := by
      intro n
      induction n with
      | zero => right; exact Nat.le_refl 0
      | succ n ih =>
        by_cases hp : semPosSeq text chunkSize 0 n < text.length
        · rcases ih with h | h
          · exact absurd hp (by omega)
          · right
            rw [semPosSeq, if_pos hp]
            have := bestSplitFor_gt text (semPosSeq text chunkSize 0 n) chunkSize hcs
              semSeparators
            simp only [semNextPos, semBestSplit, Nat.sub_zero]
            omega
        · left
          rw [semPosSeq, if_neg hp]
          omega
    rcases hprog text.length with h | h
    · exact ⟨text.length, h⟩
    · exact ⟨text.length, h⟩
  · intro fuel hfuel
    exact semChunksGo_stable text chunkSize hcs fuel text.length 0 (by omega) (by omega)

/-- Witness for `semanticChunking_no_overlap_terminates` at
`text = "ab cd"`, `chunkSize = 3`. -/
theorem semanticChunking_no_overlap_terminates_witness :
    0 < 3 ∧
    (semTerminates "ab cd".toList 3 0 ∧
    ∀ fuel, "ab cd".toList.length ≤ fuel →
      semanticChunking "ab cd".toList 3 0 fuel =
        semanticChunking "ab cd".toList 3 0 "ab cd".toList.length) :=
  ⟨by decide, semanticChunking_no_overlap_terminates "ab cd".toList 3 (by decide)⟩

/-! ## `BM25Retriever` (`src/module2/bm25_retrieval.ts`, lines 74–158)

The constructor tokenizes the corpus, records the token counts, computes
`avgdl = Σ docLengths / documents.length` (unguarded division) and the IDF
table over the set of corpus tokens; `search` accumulates the BM25 term
scores per document, sorts descending by score, truncates to `topK` and
attaches 1-based ranks. `Math.log` is the abstract parameter `mlog`; all
other arithmetic is exact. -/

/-- BM25 hyperparameter `k1 = 1.5`. -/
def bm25K1 : ℚ := 3 / 2

/-- BM25 hyperparameter `b = 0.75`. -/
def bm25B : ℚ := 3 / 4

/-- The tokens of the corpus: keys of the IDF table (`new
Set(tokenizedCorpus.flat())`; only membership in the set is ever used). -/
def corpusTokens (docs : List (List Char)) : List (List Char) :=
  (docs.map tokenize).flatten

/-- `n_q`: the number of documents whose token list contains `t`. -/
def nContaining (docs : List (List Char)) (t : List Char) : Nat :=
  ((docs.map tokenize).filter fun d => decide (t ∈ d)).length

/-- The IDF value stored by `calculateIDF`:
`Math.log((N - n_q + 0.5) / (n_q + 0.5) + 1)`. -/
def idfValue (mlog : ℚ → ℚ) (docs : List (List Char)) (t : List Char) : ℚ :=
  mlog (((docs.length : ℚ) - (nContaining docs t : ℚ) + 1 / 2) /
    ((nContaining docs t : ℚ) + 1 / 2) + 1)

/-- `this.idf.has(token)`: the table has a key for exactly the corpus
tokens. -/
def hasIdf (docs : List (List Char)) (t : List Char) : Bool :=
  decide (t ∈ corpusTokens docs)

/-- `avgdl`: mean token count, computed as an unguarded division (for the
empty corpus this is the `0 / 0` of the source, which is `0` in `ℚ`; C9
shows the value never influences a result there). -/
def avgdl (docs : List (List Char)) : ℚ :=
  (docs.map fun d => ((tokenize d).length : ℚ)).sum / (docs.length : ℚ)

/-- Term frequency: `docTokens.filter(t => t === token).length`. -/
def tfOf (d t : List Char) : Nat :=
  ((tokenize d).filter fun s => decide (s = t)).length

/-- The inner loop of `search` for one document: fold over the query tokens,
skipping tokens absent from the IDF table and otherwise adding the BM25
term score, with `avg` the (precomputed) `this.avgdl`. -/
def scoreDocAux (mlog : ℚ → ℚ) (avg : ℚ) (docs : List (List Char))
    (d query : List Char) : ℚ :=
  (tokenize query).foldl
    (fun acc t =>
      if hasIdf docs t then
        acc + idfValue mlog docs t * (tfOf d t : ℚ) * (bm25K1 + 1) /
          ((tfOf d t : ℚ) +
            bm25K1 * (1 - bm25B + bm25B * (((tokenize d).length : ℚ) / avg)))
      else acc) 0

/-- The `scores` array of `search`, one entry per corpus document, with
`avg` the value of `this.avgdl`. -/
def bm25ScoresAux (mlog : ℚ → ℚ) (avg : ℚ) (docs : List (List Char))
    (query : List Char) : List ℚ :=
  docs.map fun d => scoreDocAux mlog avg docs d query

/-- The `scores` array of `BM25Retriever.search`. -/
def bm25Scores (mlog : ℚ → ℚ) (docs : List (List Char)) (query : List Char) : List ℚ :=
  bm25ScoresAux mlog (avgdl docs) docs query

/-- Stable insert for the descending-by-key insertion sort. -/
def insertDesc (key : α → ℚ) (x : α) : List α → List α
  | [] => [x]
  | y :: ys => if key x < key y then y :: insertDesc key x ys else x :: y :: ys

/-- JS `Array.prototype.sort` with comparator `(a, b) => keyOf b - keyOf a`:
the (unique) stable descending sort by `key`. -/
def sortByKeyDesc (key : α → ℚ) : List α → List α
  | [] => []
  | x :: xs => insertDesc key x (sortByKeyDesc key xs)

/-- A search result of `BM25Retriever.search`. -/
structure SearchResult where
  document : List Char
  score : ℚ
  rank : Nat
deriving DecidableEq, Repr

/-- The final `.map((result, rank) => ({... rank: rank + 1}))`: attach
1-based positions. -/
def addRanks : Nat → List (List Char × ℚ) → List SearchResult
  | _, [] => []
  | r, p :: ps => ⟨p.1, p.2, r⟩ :: addRanks (r + 1) ps

/-- `BM25Retriever.search(query, topK)` with `avg` the value of
`this.avgdl`: score every document, sort descending (stably), truncate to
`topK`, attach ranks. -/
def searchAux (mlog : ℚ → ℚ) (avg : ℚ) (docs : List (List Char))
    (query : List Char) (topK : Nat) : List SearchResult :=
  let scored := docs.zip (bm25ScoresAux mlog avg docs query)
  addRanks 1 ((sortByKeyDesc (fun p => p.2) scored).take topK)

/-- `BM25Retriever.search(query, topK)`. -/
def search (mlog : ℚ → ℚ) (docs : List (List Char)) (query : List Char)
    (topK : Nat) : List SearchResult :=
  searchAux mlog (avgdl docs) docs query topK

/-- The score formula exactly as claim C1 words it: the sum, over the query
tokens `t` that occur in the precomputed IDF table, of
`idf(t) * tf * (k1 + 1) / (tf + k1 * (1 - b + b * |d| / avgdl))` with
`k1 = 1.5`, `b = 0.75`, `idf(t) = ln((N - n_t + 0.5) / (n_t + 0.5) + 1)`,
`N` the number of documents, `n_t` the number of documents containing `t`,
`avgdl` the mean token count, `ln` the abstract `mlog`. -/
def bm25SpecScore (mlog : ℚ → ℚ) (docs : List (List Char))
    (query d : List Char) : ℚ :=
  (((tokenize query).filter fun t => decide (t ∈ corpusTokens docs)).map fun t =>
    mlog (((docs.length : ℚ) - (nContaining docs t : ℚ) + 1 / 2) /
        ((nContaining docs t : ℚ) + 1 / 2) + 1) *
      (tfOf d t : ℚ) * (3 / 2 + 1) /
      ((tfOf d t : ℚ) +
        3 / 2 * (1 - 3 / 4 + 3 / 4 * (((tokenize d).length : ℚ) / avgdl docs)))).sum

/-- A guarded accumulating fold is the sum over the filtered list. -/
theorem foldl_if_add (p : α → Bool) (f : α → ℚ) :
    ∀ (l : List α) (init : ℚ),
      l.foldl (fun acc t => if p t then acc + f t else acc) init =
        init + ((l.filter p).map f).sum := by
  intro l
  induction l with
  | nil => intro init; simp
  | cons x xs ih =>
    intro init
    by_cases hx : p x
    · rw [List.foldl_cons, if_pos hx, ih, List.filter_cons, if_pos hx]
      simp [add_assoc]
    · rw [List.foldl_cons, if_neg hx, ih, List.filter_cons, if_neg hx]

/-- C1 (confirmed): for every non-empty corpus and every query, the `scores`
array computed by `BM25Retriever.search` assigns each document `d` the sum,
over the query-token occurrences `t` that have an entry in the IDF table, of
`idf(t) * tf * (k1 + 1) / (tf + k1 * (1 - b + b * |d| / avgdl))` with
`k1 = 1.5`, `b = 0.75`, `idf(t) = ln((N - n_t + 0.5) / (n_t + 0.5) + 1)`,
`avgdl` the mean token count, and tokenization that lowercases, removes
punctuation and splits on whitespace (`tokenize`); query tokens absent from
the corpus contribute 0 (they are filtered out of the sum). -/
theorem bm25_search_scores_match (mlog : ℚ → ℚ) (docs : List (List Char))
    (query : List Char) (_h : docs ≠ []) :
    bm25Scores mlog docs query = docs.map (bm25SpecScore mlog docs query) := by
  unfold bm25Scores bm25ScoresAux
  refine List.map_congr_left ?_
  intro d _
  unfold scoreDocAux bm25SpecScore
  rw [foldl_if_add (hasIdf docs)
    (fun t => idfValue mlog docs t * (tfOf d t : ℚ) * (bm25K1 + 1) /
      ((tfOf d t : ℚ) +
        bm25K1 * (1 - bm25B + bm25B * (((tokenize d).length : ℚ) / avgdl docs))))]
  rw [zero_add]
  rfl

/-- Witness for `bm25_search_scores_match` on the corpus
`["a b", "b"]` with query `"b c"` and `mlog = id`. -/
theorem bm25_search_scores_match_witness :
    (["a b".toList, "b".toList] : List (List Char)) ≠ [] ∧
    bm25Scores (fun x => x) ["a b".toList, "b".toList] "b c".toList =
      (["a b".toList, "b".toList] : List (List Char)).map
        (bm25SpecScore (fun x => x) ["a b".toList, "b".toList] "b c".toList) :=
  ⟨by decide,
    bm25_search_scores_match (fun x => x) ["a b".toList, "b".toList] "b c".toList
      (by decide)⟩

/-! ### Shape facts about `search` (C8) -/

/-- `insertDesc` permutes a cons. -/
theorem insertDesc_perm (key : α → ℚ) (x : α) :
    ∀ l : List α, (insertDesc key x l).Perm (x :: l) := by
  intro l
  induction l with
  | nil => simp [insertDesc]
  | cons y ys ih =>
    rw [insertDesc]
    by_cases hxy : key x < key y
    · rw [if_pos hxy]
      exact List.Perm.trans (ih.cons y) (List.Perm.swap x y ys)
    · rw [if_neg hxy]

/-- `sortByKeyDesc` permutes its input. -/
theorem sortByKeyDesc_perm (key : α → ℚ) :
    ∀ l : List α, (sortByKeyDesc key l).Perm l := by
  intro l
  induction l with
  | nil => simp [sortByKeyDesc]
  | cons x xs ih =>
    rw [sortByKeyDesc]
    exact ((insertDesc_perm key x (sortByKeyDesc key xs)).trans (ih.cons x))

/-- `insertDesc` preserves descending order. -/
theorem insertDesc_pairwise (key : α → ℚ) (x : α) :
    ∀ l : List α, l.Pairwise (fun a b => key b ≤ key a) →
      (insertDesc key x l).Pairwise (fun a b => key b ≤ key a) := by
  intro l
  induction l with
  | nil => intro _; simp [insertDesc]
  | cons y ys ih =>
    intro hp
    rw [List.pairwise_cons] at hp
    rw [insertDesc]
    by_cases hxy : key x < key y
    · rw [if_pos hxy]
      rw [List.pairwise_cons]
      constructor
      · intro a ha
        have hmem' := (insertDesc_perm key x ys).mem_iff.mp ha
        rcases List.mem_cons.mp hmem' with rfl | hmem
        · exact le_of_lt hxy
        · exact hp.1 a hmem
      · exact ih hp.2
    · rw [if_neg hxy]
      rw [List.pairwise_cons]
      constructor
      · intro a ha
        rcases List.mem_cons.mp ha with rfl | hmem
        · exact le_of_not_lt hxy
        · exact le_trans (hp.1 a hmem) (le_of_not_lt hxy)
      · exact List.pairwise_cons.mpr hp

/-- `sortByKeyDesc` sorts nonincreasingly by the key. -/
theorem sortByKeyDesc_pairwise (key : α → ℚ) :
    ∀ l : List α, (sortByKeyDesc key l).Pairwise (fun a b => key b ≤ key a) := by
  intro l
  induction l with
  | nil => simp [sortByKeyDesc]
  | cons x xs ih => exact insertDesc_pairwise key x _ ih

/-- `addRanks` preserves length. -/
theorem addRanks_length : ∀ (r : Nat) (l : List (List Char × ℚ)),
    (addRanks r l).length = l.length := by
  intro r l
  induction l generalizing r with
  | nil => rfl
  | cons p ps ih => simp [addRanks, ih]

/-- Every element of `addRanks r l` is an element of `l` with a rank
attached. -/
theorem addRanks_mem : ∀ (r : Nat) (l : List (List Char × ℚ)) (s : SearchResult),
    s ∈ addRanks r l → (s.document, s.score) ∈ l := by
  intro r l
  induction l generalizing r with
  | nil => intro s hs; simp [addRanks] at hs
  | cons p ps ih =>
    intro s hs
    rw [addRanks] at hs
    rcases List.mem_cons.mp hs with rfl | hs
    · simp
    · exact List.mem_cons_of_mem p (ih (r + 1) s hs)

/-- The ranks attached by `addRanks r` are `r, r+1, ...`. -/
theorem addRanks_map_rank : ∀ (r : Nat) (l : List (List Char × ℚ)),
    (addRanks r l).map SearchResult.rank = List.range' r l.length := by
  intro r l
  induction l generalizing r with
  | nil => rfl
  | cons p ps ih => simp [addRanks, List.range'_succ, ih]

/-- `addRanks` transports pairwise score facts. -/
theorem addRanks_pairwise (R : ℚ → ℚ → Prop) :
    ∀ (r : Nat) (l : List (List Char × ℚ)), l.Pairwise (fun p q => R p.2 q.2) →
      (addRanks r l).Pairwise (fun a b => R a.score b.score) := by
  intro r l
  induction l generalizing r with
  | nil => intro _; simp [addRanks]
  | cons p ps ih =>
    intro hp
    rw [List.pairwise_cons] at hp
    rw [addRanks, List.pairwise_cons]
    constructor
    · intro s hs
      exact hp.1 _ (addRanks_mem (r + 1) ps s hs)
    · exact ih (r + 1) hp.2

/-- C8 (confirmed): `BM25Retriever.search` keeps one score per corpus
document (the `scores` array is parallel to the corpus), and for every
`topK ≥ 0` returns exactly `min topK N` results whose documents belong to
the corpus, whose `rank` fields are the 1-based positions `1, 2, ...`, and
whose scores are nonincreasing. -/
theorem bm25_search_shape (mlog : ℚ → ℚ) (docs : List (List Char))
    (query : List Char) (topK : Nat) :
    (bm25Scores mlog docs query).length = docs.length ∧
    (search mlog docs query topK).length = min topK docs.length ∧
    (∀ r ∈ search mlog docs query topK, r.document ∈ docs) ∧
    (search mlog docs query topK).map SearchResult.rank =
      List.range' 1 (min topK docs.length) ∧
    (search mlog docs query topK).Pairwise (fun a b => b.score ≤ a.score) := by
  have hscores : (bm25ScoresAux mlog (avgdl docs) docs query).length = docs.length :=
    List.length_map docs _
  have hzip : (docs.zip (bm25ScoresAux mlog (avgdl docs) docs query)).length =
      docs.length := by
    rw [List.length_zip, hscores, Nat.min_self]
  have hsortlen :
      (sortByKeyDesc (fun p : List Char × ℚ => p.2)
        (docs.zip (bm25ScoresAux mlog (avgdl docs) docs query))).length =
        docs.length := by
    rw [(sortByKeyDesc_perm (fun p : List Char × ℚ => p.2) _).length_eq, hzip]
  have htakelen :
      ((sortByKeyDesc (fun p : List Char × ℚ => p.2)
        (docs.zip (bm25ScoresAux mlog (avgdl docs) docs query))).take topK).length =
        min topK docs.length := by
    rw [List.length_take, hsortlen]
  refine ⟨List.length_map docs _, ?_, ?_, ?_, ?_⟩
  · rw [search, searchAux, addRanks_length, htakelen]
  · intro r hr
    have hmem := addRanks_mem 1 _ r hr
    have hmem2 : (r.document, r.score) ∈
        sortByKeyDesc (fun p : List Char × ℚ => p.2)
          (docs.zip (bm25ScoresAux mlog (avgdl docs) docs query)) :=
      List.take_subset topK _ hmem
    have hmem3 := (sortByKeyDesc_perm (fun p : List Char × ℚ => p.2) _).mem_iff.mp hmem2
    exact (List.of_mem_zip hmem3).1
  · rw [search, searchAux, addRanks_map_rank, htakelen]
  · refine addRanks_pairwise (fun a b => b ≤ a) 1 _ ?_
    exact (sortByKeyDesc_pairwise (fun p : List Char × ℚ => p.2) _).sublist (List.take_sublist topK _)

/-- C9 (confirmed): on the empty corpus the constructor computes
`avgdl = 0 / 0` (an unguarded division), but `search` returns the empty
list for every query, every `topK`, and in fact for every possible value of
`this.avgdl`: the scoring loop ranges over an empty corpus, so the division
never influences any returned result. -/
theorem bm25_search_empty (mlog : ℚ → ℚ) (a : ℚ) (query : List Char) (topK : Nat) :
    avgdl [] = 0 / 0 ∧
    searchAux mlog a [] query topK = [] ∧
    search mlog [] query topK = [] := by
  refine ⟨by norm_num [avgdl], ?_, ?_⟩ <;>
    simp [search, searchAux, sortByKeyDesc, addRanks]

/-! ## Reciprocal Rank Fusion

`rrfFuse` (`src/module2/search_hybrid.ts`, lines 70–92) accumulates
`scores[item.document] += 1 / (k + item.rank)` over both input lists in a
*plain-object* record `Record<string, number>`, then returns
`Object.entries(scores)` sorted descending by score.
`reciprocalRankFusion` (`src/rag/cross_encoder_reranking.ts`, lines
133–146) accumulates `fusedScores.set(docIdx, cur + 1 / (k + rank + 1))`
over 0-based index arrays in a `Map`, sorts entries descending by score,
and keeps only the indices. Ranks are the natural numbers produced by the
retrievers.

The `Map` (`bump`) is a purely insertion-ordered association of keys to
numbers. The plain object is not, in two ways that the embedding models:

* the record inherits from `Object.prototype`, so for a document named
  `"__proto__"` the `!scores[doc]` check reads the truthy prototype, the
  `+=` assignment is swallowed by the inherited accessor's setter, and no
  entry is ever created; for a document named after an inherited method
  (`"constructor"`, `"toString"`, ...) the truthy function skips the
  initialization and `+=` stores a string concatenation (`recAddScore`);
* `Object.entries` enumerates array-index-like keys first, in ascending
  numeric order, before the other string keys in insertion order
  (`jsEntries`). -/

/-- One `Map` update of `reciprocalRankFusion`
(`const cur = fusedScores.get(docIdx) || 0; fusedScores.set(docIdx, cur + v)`):
add `v` to the entry of `key` in an insertion-ordered association list,
appending a fresh entry at the end if the key is absent. This is also the
prototype-free reference accumulator to which `rrfFuse`'s plain-object
record reduces on keys away from `Object.prototype`
(`recAddScore_eq_bump`). -/
def bump [DecidableEq α] (key : α) (v : ℚ) : List (α × ℚ) → List (α × ℚ)
  | [] => [(key, v)]
  | p :: rest => if p.1 = key then (p.1, p.2 + v) :: rest else p :: bump key v rest

/-- A value stored in `rrfFuse`'s `scores` record. Numbers are exact
rationals; `str` stands for the non-empty, non-numeric strings produced
when `+=` reads a function inherited from `Object.prototype` (the function
source concatenated with the number). Their exact text plays no further
role: a non-empty string is truthy for the `!scores[doc]` check, `+=` on
it concatenates again (still a non-empty string), and arithmetic on it in
the sort comparator yields `NaN`. -/
inductive JsValue where
  | num (q : ℚ)
  | str
deriving DecidableEq, Repr

/-- Numeric reading of a stored score: the fused score when the value is a
number (under the amended claims every value is). -/
def numScore : JsValue → ℚ
  | JsValue.num q => q
  | JsValue.str => 0

/-- `"__proto__"`: the accessor property every plain object inherits.
Reading it on a fresh record yields the truthy `Object.prototype`;
assigning a non-object value to it is silently swallowed by the inherited
setter, so no own property is created. -/
def protoAccessorKey : List Char := "__proto__".toList

/-- The function-valued properties every plain object inherits from
`Object.prototype` in Node: reading one of these keys on a fresh record
yields a truthy function, and assigning creates an own property that
shadows it. -/
def protoMethodKeys : List (List Char) :=
  ["constructor".toList, "hasOwnProperty".toList, "isPrototypeOf".toList,
    "propertyIsEnumerable".toList, "toLocaleString".toList, "toString".toList,
    "valueOf".toList, "__defineGetter__".toList, "__defineSetter__".toList,
    "__lookupGetter__".toList, "__lookupSetter__".toList]

/-- Keys on which a fresh `{}` record does not behave like an empty map. -/
def isProtoKey (d : List Char) : Bool :=
  decide (d = protoAccessorKey) || decide (d ∈ protoMethodKeys)

/-- One `addScores` item of `rrfFuse` on the plain-object record:

```
if (!scores[item.document]) { scores[item.document] = 0; }
scores[item.document] += 1 / (k + item.rank);
```

An own property shadows the prototype and is updated in place: a numeric
score gets the contribution added (a stored 0 is falsy, but resetting it
to 0 before adding changes nothing), a string score is truthy and stays a
string under `+=`. Without an own property the read falls through to
`Object.prototype`: for `"__proto__"` the truthy accessor result skips the
init and the subsequent assignment is swallowed by the inherited setter,
so the record is unchanged; for an inherited method the truthy function
skips the init and `+=` appends a string-valued own property; for any
other key the read is `undefined` (falsy), so the key is initialized to 0
and the contribution added, appending a numeric own property. -/
def recAddScore (k : ℚ) (doc : List Char) (rank : Nat) :
    List (List Char × JsValue) → List (List Char × JsValue)
  | [] =>
    if doc = protoAccessorKey then []
    else if doc ∈ protoMethodKeys then [(doc, JsValue.str)]
    else [(doc, JsValue.num (1 / (k + (rank : ℚ))))]
  | p :: rest =>
    if p.1 = doc then
      (p.1,
        match p.2 with
        | JsValue.num s => JsValue.num (s + 1 / (k + (rank : ℚ)))
        | JsValue.str => JsValue.str) :: rest
    else p :: recAddScore k doc rank rest

/-- Numeric value of a digit string. -/
def natOfDigits (cs : List Char) : Nat :=
  cs.foldl (fun n c => 10 * n + (c.toNat - 48)) 0

/-- A JS array-index key: the canonical decimal string of an integer in
`[0, 2^32 - 2]` (no leading zeros except `"0"` itself). -/
def isArrayIndexKey (cs : List Char) : Bool :=
  decide (cs ≠ []) && cs.all Char.isDigit &&
    (decide (cs = ['0']) || decide (cs.headD '0' ≠ '0')) &&
    decide (natOfDigits cs < 4294967295)

/-- Ascending numeric order of the array-index entries. Their keys are
distinct (own properties of one object), so any correct sort produces the
unique front block of `Object.entries`; implemented as the stable
descending sort on the negated numeric key. -/
def sortIndexAsc (m : List (List Char × β)) : List (List Char × β) :=
  sortByKeyDesc (fun p => -(natOfDigits p.1 : ℚ)) m

/-- `Object.entries(scores)`: the own enumerable string-keyed properties —
array-index keys first, in ascending numeric order, then the remaining
keys in insertion order. -/
def jsEntries (m : List (List Char × β)) : List (List Char × β) :=
  sortIndexAsc (m.filter fun p => isArrayIndexKey p.1) ++
    m.filter fun p => !isArrayIndexKey p.1

/-- The comparator `(a, b) => b.score - a.score` read as "`a` must come
after `b`": true when both scores are numbers and `a`'s is smaller. When a
string score is involved the subtraction is `NaN`, which `Array.sort`
treats as 0 (a tie); with such an inconsistent comparator ES2023 leaves
the order implementation-defined, and no theorem depends on that branch. -/
def jsScoreLt : JsValue → JsValue → Bool
  | JsValue.num a, JsValue.num b => decide (a < b)
  | _, _ => false

/-- Stable insert for the descending entry sort. -/
def insertEntryDesc (x : List Char × JsValue) :
    List (List Char × JsValue) → List (List Char × JsValue)
  | [] => [x]
  | y :: ys => if jsScoreLt x.2 y.2 then y :: insertEntryDesc x ys else x :: y :: ys

/-- `Array.prototype.sort((a, b) => b.score - a.score)` on the entry
pairs: the stable descending sort. -/
def sortEntriesDesc : List (List Char × JsValue) → List (List Char × JsValue)
  | [] => []
  | x :: xs => insertEntryDesc x (sortEntriesDesc xs)

/-- `rrfFuse(listA, listB, k)` from `search_hybrid.ts`: accumulate each
occurrence's `1 / (k + rank)` into the plain-object record keyed by the
document text, take `Object.entries` and sort descending by score. -/
def rrfFuse (k : ℚ) (listA listB : List (List Char × Nat)) :
    List (List Char × JsValue) :=
  sortEntriesDesc (jsEntries
    ((listA ++ listB).foldl (fun m item => recAddScore k item.1 item.2 m) []))

/-- The sorted `fusedScores` entries of `reciprocalRankFusion(rankings, k)`
from `cross_encoder_reranking.ts`: the item at 0-based position `rank` of
each ranking contributes `1 / (k + rank + 1)` to its document index. -/
def rcfEntries (k : ℚ) (rankings : List (List Nat)) : List (Nat × ℚ) :=
  sortByKeyDesc (fun p : Nat × ℚ => p.2)
    (rankings.foldl
      (fun m ranking =>
        ranking.enum.foldl (fun m' p => bump p.2 (1 / (k + (p.1 : ℚ) + 1)) m') m)
      [])

/-- `reciprocalRankFusion(rankings, k)`: entry indices only. -/
def reciprocalRankFusion (k : ℚ) (rankings : List (List Nat)) : List Nat :=
  (rcfEntries k rankings).map fun p => p.1

/-- The total score an association list gives to a key (its entry's value
when the keys are distinct, 0 when absent). -/
def accScore [DecidableEq α] (d : α) (m : List (α × ℚ)) : ℚ :=
  ((m.filter fun p => decide (p.1 = d)).map Prod.snd).sum

/-- Keys after a `bump`: unchanged, or the new key appended. -/
theorem bump_keys [DecidableEq α] (key : α) (v : ℚ) :
    ∀ m : List (α × ℚ), (bump key v m).map Prod.fst =
      (if key ∈ m.map Prod.fst then m.map Prod.fst else m.map Prod.fst ++ [key]) := by
  intro m
  induction m with
  | nil => simp [bump]
  | cons p rest ih =>
    rw [bump]
    by_cases hk : p.1 = key
    · rw [if_pos hk]
      simp [hk]
    · rw [if_neg hk]
      simp only [List.map_cons, ih, List.mem_cons]
      by_cases hmem : key ∈ rest.map Prod.fst
      · simp [hmem, hk, Ne.symm hk]
      · simp [hmem, hk, Ne.symm hk]

/-- `bump` preserves distinctness of keys. -/
theorem bump_keys_nodup [DecidableEq α] (key : α) (v : ℚ) (m : List (α × ℚ))
    (h : (m.map Prod.fst).Nodup) : ((bump key v m).map Prod.fst).Nodup := by
  rw [bump_keys]
  by_cases hmem : key ∈ m.map Prod.fst
  · rwa [if_pos hmem]
  · rw [if_neg hmem, List.nodup_append]
    refine ⟨h, List.nodup_singleton key, ?_⟩
    intro x hx hx'
    rw [List.mem_singleton] at hx'
    exact hmem (hx' ▸ hx)

/-- Unfold one entry of the score sum. -/
theorem accScore_cons [DecidableEq α] (d : α) (q : α × ℚ) (rest : List (α × ℚ)) :
    accScore d (q :: rest) = (if q.1 = d then q.2 else 0) + accScore d rest := by
  unfold accScore
  by_cases h : q.1 = d
  · simp [List.filter_cons, h]
  · simp [List.filter_cons, h]

/-- A key absent from the list scores 0. -/
theorem accScore_eq_zero [DecidableEq α] (d : α) :
    ∀ m : List (α × ℚ), d ∉ m.map Prod.fst → accScore d m = 0 := by
  intro m
  induction m with
  | nil => intro _; rfl
  | cons q rest ih =>
    intro h
    rw [List.map_cons, List.mem_cons] at h
    push_neg at h
    rw [accScore_cons, if_neg (fun hq => h.1 hq.symm), ih h.2, add_zero]

/-- How a `bump` changes the score of each key. -/
theorem accScore_bump [DecidableEq α] (key d : α) (v : ℚ) :
    ∀ m : List (α × ℚ), accScore d (bump key v m) =
      accScore d m + (if key = d then v else 0) := by
  intro m
  induction m with
  | nil =>
    rw [bump, accScore_cons]
    show (if key = d then v else 0) + accScore d [] = accScore d [] + _
    rw [add_comm]
  | cons p rest ih =>
    rw [bump]
    by_cases hk : p.1 = key
    · rw [if_pos hk, accScore_cons, accScore_cons]
      by_cases hd : p.1 = d
      · rw [if_pos hd, if_pos hd, if_pos (hk ▸ hd)]
        ring
      · rw [if_neg hd, if_neg hd, if_neg (fun h => hd (hk.trans h))]
        ring
    · rw [if_neg hk, accScore_cons, accScore_cons, ih]
      ring

/-- Folding `bump` over a list of (key, value) operations adds, for each
key, the sum of the values at its occurrences. -/
theorem accScore_foldl_bump [DecidableEq α] (d : α) :
    ∀ (ops : List (α × ℚ)) (m : List (α × ℚ)),
      accScore d (ops.foldl (fun acc op => bump op.1 op.2 acc) m) =
        accScore d m + ((ops.filter fun op => decide (op.1 = d)).map Prod.snd).sum := by
  intro ops
  induction ops with
  | nil => intro m; simp
  | cons op rest ih =>
    intro m
    rw [List.foldl_cons, ih, accScore_bump]
    by_cases hd : op.1 = d
    · simp [List.filter_cons, hd]
      ring
    · simp [List.filter_cons, hd]

/-- Fold of `bump` preserves key distinctness. -/
theorem foldl_bump_keys_nodup [DecidableEq α] :
    ∀ (ops : List (α × ℚ)) (m : List (α × ℚ)), (m.map Prod.fst).Nodup →
      ((ops.foldl (fun acc op => bump op.1 op.2 acc) m).map Prod.fst).Nodup := by
  intro ops
  induction ops with
  | nil => intro m hm; simpa using hm
  | cons op rest ih =>
    intro m hm
    exact ih _ (bump_keys_nodup op.1 op.2 m hm)

/-- Key membership after a fold of `bump`s: the keys are those of the
accumulator plus the keys of the operations. -/
theorem foldl_bump_keys_mem [DecidableEq α] (d : α) :
    ∀ (ops : List (α × ℚ)) (m : List (α × ℚ)),
      (d ∈ (ops.foldl (fun acc op => bump op.1 op.2 acc) m).map Prod.fst ↔
        d ∈ m.map Prod.fst ∨ d ∈ ops.map Prod.fst) := by
  intro ops
  induction ops with
  | nil => intro m; simp
  | cons op rest ih =>
    intro m
    rw [List.foldl_cons, ih, bump_keys]
    by_cases hmem : op.1 ∈ m.map Prod.fst
    · rw [if_pos hmem]
      simp only [List.map_cons, List.mem_cons]
      constructor
      · rintro (h | h)
        · exact Or.inl h
        · exact Or.inr (Or.inr h)
      · rintro (h | h | h)
        · exact Or.inl h
        · exact Or.inl (h ▸ hmem)
        · exact Or.inr h
    · rw [if_neg hmem]
      simp only [List.mem_append, List.mem_singleton, List.map_cons, List.mem_cons]
      tauto

/-- In a list with distinct keys, each entry's value is its key's score. -/
theorem accScore_of_mem [DecidableEq α] (p : α × ℚ) :
    ∀ m : List (α × ℚ), (m.map Prod.fst).Nodup → p ∈ m → accScore p.1 m = p.2 := by
  intro m
  induction m with
  | nil => intro _ hp; simp at hp
  | cons q rest ih =>
    intro hnd hp
    rw [List.map_cons, List.nodup_cons] at hnd
    rcases List.mem_cons.mp hp with rfl | hp'
    · rw [accScore_cons, if_pos rfl, accScore_eq_zero p.1 rest hnd.1, add_zero]
    · have hne : ¬ q.1 = p.1 := fun hq => hnd.1 (hq ▸ List.mem_map_of_mem Prod.fst hp')
      rw [accScore_cons, if_neg hne, ih hnd.2 hp', zero_add]

/-- The score sum an association list assigns to a key is invariant under
permutation. -/
theorem accScore_perm [DecidableEq α] (d : α) (m m' : List (α × ℚ))
    (h : m.Perm m') : accScore d m = accScore d m' :=
  ((h.filter _).map Prod.snd).sum_eq

/-- Filtering after a map is mapping after filtering the composed
predicate. -/
theorem map_filter_comm (f : α → β) (p : β → Bool) :
    ∀ l : List α, (l.map f).filter p = (l.filter fun a => p (f a)).map f := by
  intro l
  induction l with
  | nil => rfl
  | cons x xs ih =>
    rw [List.map_cons, List.filter_cons, List.filter_cons]
    by_cases hx : p (f x)
    · rw [if_pos hx, if_pos hx, List.map_cons, ih]
    · rw [if_neg hx, if_neg hx, ih]

/-- View a rational-valued association list as a record of numeric
scores. -/
def numEntries (m : List (List Char × ℚ)) : List (List Char × JsValue) :=
  m.map fun p => (p.1, JsValue.num p.2)

/-- On a key away from `Object.prototype`, the plain-object update is
exactly the `Map` update with a numeric value. -/
theorem recAddScore_eq_bump (k : ℚ) (doc : List Char) (rank : Nat)
    (hdoc : isProtoKey doc = false) :
    ∀ m : List (List Char × ℚ),
      recAddScore k doc rank (numEntries m) =
        numEntries (bump doc (1 / (k + (rank : ℚ))) m) := by
  have hacc : ¬ doc = protoAccessorKey := by
    intro hd
    rw [isProtoKey] at hdoc
    simp [hd] at hdoc
  have hmeth : ¬ doc ∈ protoMethodKeys := by
    intro hd
    rw [isProtoKey] at hdoc
    simp [hd] at hdoc
  intro m
  induction m with
  | nil =>
    show recAddScore k doc rank [] = _
    rw [recAddScore, if_neg hacc, if_neg hmeth]
    rfl
  | cons p rest ih =>
    show recAddScore k doc rank ((p.1, JsValue.num p.2) :: numEntries rest) = _
    rw [recAddScore, bump]
    dsimp only
    by_cases hp : p.1 = doc
    · rw [if_pos hp, if_pos hp]
      rfl
    · rw [if_neg hp, if_neg hp, ih]
      rfl

/-- The whole `addScores` fold of `rrfFuse` coincides with the numeric
reference fold when no document is named like an `Object.prototype`
property. -/
theorem foldl_recAddScore_eq_bump (k : ℚ) :
    ∀ (items : List (List Char × Nat)) (m : List (List Char × ℚ)),
      (∀ it ∈ items, isProtoKey it.1 = false) →
      items.foldl (fun acc it => recAddScore k it.1 it.2 acc) (numEntries m) =
        numEntries
          (items.foldl (fun acc it => bump it.1 (1 / (k + (it.2 : ℚ))) acc) m) := by
  intro items
  induction items with
  | nil => intro m _; rfl
  | cons it rest ih =>
    intro m h
    rw [List.foldl_cons, List.foldl_cons,
      recAddScore_eq_bump k it.1 it.2 (h it (by simp)) m]
    exact ih _ fun x hx => h x (by simp [hx])

/-- `Object.entries` permutes the own entries. -/
theorem jsEntries_perm (m : List (List Char × JsValue)) : (jsEntries m).Perm m := by
  rw [jsEntries, sortIndexAsc]
  refine List.Perm.trans
    (List.Perm.append (sortByKeyDesc_perm (fun p : List Char × JsValue =>
      -(natOfDigits p.1 : ℚ)) (m.filter fun p => isArrayIndexKey p.1))
      (List.Perm.refl (m.filter fun p => !isArrayIndexKey p.1))) ?_
  exact List.filter_append_perm _ m

/-- With no array-index-like keys, `Object.entries` is plain insertion
order. -/
theorem jsEntries_of_no_index (m : List (List Char × JsValue))
    (h : ∀ p ∈ m, isArrayIndexKey p.1 = false) : jsEntries m = m := by
  have h1 : (m.filter fun p => isArrayIndexKey p.1) = [] := by
    rw [List.filter_eq_nil_iff]
    intro p hp
    simp [h p hp]
  have h2 : (m.filter fun p => !isArrayIndexKey p.1) = m := by
    rw [List.filter_eq_self]
    intro p hp
    simp [h p hp]
  rw [jsEntries, h1, h2]
  rfl

/-- `insertEntryDesc` permutes a cons. -/
theorem insertEntryDesc_perm (x : List Char × JsValue) :
    ∀ l, (insertEntryDesc x l).Perm (x :: l) := by
  intro l
  induction l with
  | nil => simp [insertEntryDesc]
  | cons y ys ih =>
    rw [insertEntryDesc]
    by_cases hxy : jsScoreLt x.2 y.2
    · rw [if_pos hxy]
      exact List.Perm.trans (ih.cons y) (List.Perm.swap x y ys)
    · rw [if_neg hxy]

/-- `sortEntriesDesc` permutes its input. -/
theorem sortEntriesDesc_perm : ∀ l, (sortEntriesDesc l).Perm l := by
  intro l
  induction l with
  | nil => simp [sortEntriesDesc]
  | cons x xs ih =>
    rw [sortEntriesDesc]
    exact (insertEntryDesc_perm x (sortEntriesDesc xs)).trans (ih.cons x)

/-- On all-numeric entries the entry sort is the numeric descending
sort. -/
theorem insertEntryDesc_numEntries (x : List Char × ℚ) :
    ∀ l : List (List Char × ℚ),
      insertEntryDesc (x.1, JsValue.num x.2) (numEntries l) =
        numEntries (insertDesc (fun p : List Char × ℚ => p.2) x l) := by
  intro l
  induction l with
  | nil => rfl
  | cons y ys ih =>
    show insertEntryDesc _ ((y.1, JsValue.num y.2) :: numEntries ys) = _
    rw [insertEntryDesc, insertDesc]
    dsimp only
    by_cases hxy : x.2 < y.2
    · rw [if_pos (by simp [jsScoreLt, hxy]), if_pos hxy, ih]
      rfl
    · rw [if_neg (by simp [jsScoreLt, hxy]), if_neg hxy]
      rfl

/-- `sortEntriesDesc` on all-numeric entries is `sortByKeyDesc` on the
numbers. -/
theorem sortEntriesDesc_numEntries :
    ∀ l : List (List Char × ℚ),
      sortEntriesDesc (numEntries l) =
        numEntries (sortByKeyDesc (fun p : List Char × ℚ => p.2) l) := by
  intro l
  induction l with
  | nil => rfl
  | cons x xs ih =>
    show sortEntriesDesc ((x.1, JsValue.num x.2) :: numEntries xs) = _
    rw [sortEntriesDesc, sortByKeyDesc, ih, insertEntryDesc_numEntries]

/-- Inserting into an all-numeric descending list keeps it descending in
the numeric score. -/
theorem insertEntryDesc_pairwise (x : List Char × JsValue) :
    ∀ l, (∀ p ∈ x :: l, ∃ q, p.2 = JsValue.num q) →
      l.Pairwise (fun a b => numScore b.2 ≤ numScore a.2) →
      (insertEntryDesc x l).Pairwise (fun a b => numScore b.2 ≤ numScore a.2) := by
  intro l
  induction l with
  | nil => intro _ _; simp [insertEntryDesc]
  | cons y ys ih =>
    intro hnum hp
    rw [List.pairwise_cons] at hp
    obtain ⟨qx, hqx⟩ := hnum x (by simp)
    obtain ⟨qy, hqy⟩ := hnum y (by simp)
    rw [insertEntryDesc]
    by_cases hxy : jsScoreLt x.2 y.2
    · rw [if_pos hxy]
      rw [List.pairwise_cons]
      have hlt : qx < qy := by
        rw [hqx, hqy] at hxy
        simpa [jsScoreLt] using hxy
      constructor
      · intro a ha
        have hmem' := (insertEntryDesc_perm x ys).mem_iff.mp ha
        rcases List.mem_cons.mp hmem' with rfl | hmem
        · rw [hqx, hqy]
          exact le_of_lt hlt
        · exact hp.1 a hmem
      · refine ih (fun p hpm => ?_) hp.2
        rcases List.mem_cons.mp hpm with rfl | hpm'
        · exact ⟨qx, hqx⟩
        · exact hnum p (by simp [hpm'])
    · rw [if_neg hxy]
      have hle : qy ≤ qx := by
        rw [hqx, hqy] at hxy
        simpa [jsScoreLt] using hxy
      rw [List.pairwise_cons]
      constructor
      · intro a ha
        rcases List.mem_cons.mp ha with rfl | hmem
        · rw [hqx, hqy]
          simpa [numScore] using hle
        · refine le_trans (hp.1 a hmem) ?_
          rw [hqx, hqy]
          simpa [numScore] using hle
      · exact List.pairwise_cons.mpr hp

/-- `sortEntriesDesc` sorts all-numeric entries nonincreasingly. -/
theorem sortEntriesDesc_pairwise :
    ∀ l, (∀ p ∈ l, ∃ q, p.2 = JsValue.num q) →
      (sortEntriesDesc l).Pairwise (fun a b => numScore b.2 ≤ numScore a.2) := by
  intro l
  induction l with
  | nil => intro _; simp [sortEntriesDesc]
  | cons x xs ih =>
    intro h
    rw [sortEntriesDesc]
    refine insertEntryDesc_pairwise x _ ?_ (ih fun p hp => h p (by simp [hp]))
    intro p hp
    rcases List.mem_cons.mp hp with rfl | hp'
    · exact h p (by simp)
    · exact h p (by simp [(sortEntriesDesc_perm xs).mem_iff.mp hp'])

/-- C4 (counterexample): "one entry per distinct document" is false of the
program. For a document whose text is `"__proto__"`, the `!scores[doc]`
check reads the truthy inherited prototype and the `+=` assignment is
swallowed by the inherited setter, so `rrfFuse` returns no entry for it at
all. -/
theorem rrfFuse_claim_false :
    rrfFuse 60 [("__proto__".toList, 1)] [] = [] ∧
    "__proto__".toList ∈
      (([("__proto__".toList, 1)] ++ ([] : List (List Char × Nat))).map Prod.fst) ∧
    ¬ "__proto__".toList ∈ (rrfFuse 60 [("__proto__".toList, 1)] []).map Prod.fst := by
  refine ⟨?_, ?_, ?_⟩ <;> decide

/-- C4 (amended): for every pair of ranked lists none of whose documents is
named like an `Object.prototype` property (`"__proto__"`, `"constructor"`,
`"toString"`, ...), `rrfFuse` (default `k = 60`) returns one entry per
distinct document — the fused score being the number
`Σ 1 / (60 + rank)` over that document's occurrences in both lists — in
nonincreasing score order. (Prototype-named documents break the original
unrestricted claim: `"__proto__"` gets no entry, the others get a
non-numeric score; see `rrfFuse_claim_false`.) -/
theorem rrfFuse_spec (listA listB : List (List Char × Nat))
    (h : ∀ d ∈ (listA ++ listB).map Prod.fst, isProtoKey d = false) :
    ((rrfFuse 60 listA listB).map Prod.fst).Nodup ∧
    (∀ d : List Char, d ∈ (rrfFuse 60 listA listB).map Prod.fst ↔
        d ∈ (listA ++ listB).map Prod.fst) ∧
    (∀ p ∈ rrfFuse 60 listA listB,
        p.2 = JsValue.num
          ((((listA ++ listB).filter fun it => decide (it.1 = p.1)).map
            fun it => 1 / (60 + (it.2 : ℚ))).sum)) ∧
    (rrfFuse 60 listA listB).Pairwise (fun a b => numScore b.2 ≤ numScore a.2) := by
  have hdocs : ∀ it ∈ listA ++ listB, isProtoKey it.1 = false := fun it hit =>
    h it.1 (List.mem_map_of_mem Prod.fst hit)
  have hfold := foldl_recAddScore_eq_bump 60 (listA ++ listB) [] hdocs
  rw [show numEntries [] = ([] : List (List Char × JsValue)) from rfl] at hfold
  have hfuse : rrfFuse 60 listA listB =
      sortEntriesDesc (jsEntries (numEntries
        ((listA ++ listB).foldl
          (fun acc it => bump it.1 (1 / (60 + (it.2 : ℚ))) acc) []))) := by
    rw [rrfFuse, hfold]
  have hFqops : (listA ++ listB).foldl
      (fun acc it => bump it.1 (1 / (60 + (it.2 : ℚ))) acc) [] =
      ((listA ++ listB).map fun it => (it.1, 1 / (60 + (it.2 : ℚ)))).foldl
        (fun acc op => bump op.1 op.2 acc) [] := by
    rw [List.foldl_map]
  have hkeysN : (((listA ++ listB).foldl
      (fun acc it => bump it.1 (1 / (60 + (it.2 : ℚ))) acc) []).map Prod.fst).Nodup := by
    rw [hFqops]
    exact foldl_bump_keys_nodup _ [] (by simp)
  have hpermAll : (rrfFuse 60 listA listB).Perm (numEntries
      ((listA ++ listB).foldl
        (fun acc it => bump it.1 (1 / (60 + (it.2 : ℚ))) acc) [])) := by
    rw [hfuse]
    exact (sortEntriesDesc_perm _).trans (jsEntries_perm _)
  have hnumkeys : (numEntries ((listA ++ listB).foldl
      (fun acc it => bump it.1 (1 / (60 + (it.2 : ℚ))) acc) [])).map Prod.fst =
      ((listA ++ listB).foldl
        (fun acc it => bump it.1 (1 / (60 + (it.2 : ℚ))) acc) []).map Prod.fst := by
    rw [numEntries, List.map_map]
    rfl
  have hopskeys : (((listA ++ listB).map
      fun it => (it.1, 1 / (60 + (it.2 : ℚ)))).map Prod.fst) =
      (listA ++ listB).map Prod.fst := by
    rw [List.map_map]
    rfl
  refine ⟨?_, ?_, ?_, ?_⟩
  · refine (hpermAll.map Prod.fst).nodup_iff.mpr ?_
    rw [hnumkeys]
    exact hkeysN
  · intro d
    rw [(hpermAll.map Prod.fst).mem_iff, hnumkeys, hFqops,
      foldl_bump_keys_mem, hopskeys]
    simp
  · intro p hp
    have hpmem := hpermAll.mem_iff.mp hp
    rcases List.mem_map.mp hpmem with ⟨q, hq, rfl⟩
    have hval : accScore q.1 (((listA ++ listB).map
        fun it => (it.1, 1 / (60 + (it.2 : ℚ)))).foldl
          (fun acc op => bump op.1 op.2 acc) []) = q.2 := by
      refine accScore_of_mem q _ ?_ ?_
      · rw [← hFqops]
        exact hkeysN
      · rw [← hFqops]
        exact hq
    rw [accScore_foldl_bump] at hval
    rw [show accScore q.1 ([] : List (List Char × ℚ)) = 0 from rfl, zero_add] at hval
    show JsValue.num q.2 = _
    rw [← hval, map_filter_comm, List.map_map]
    rfl
  · rw [hfuse]
    refine sortEntriesDesc_pairwise _ ?_
    intro p hp
    have := (jsEntries_perm _).mem_iff.mp hp
    rcases List.mem_map.mp this with ⟨q, _, rfl⟩
    exact ⟨q.2, rfl⟩

/-- Witness for `rrfFuse_spec` on the lists `[("a", 1)]` and `[("b", 2)]`. -/
theorem rrfFuse_spec_witness :
    (∀ d ∈ (([("a".toList, 1)] ++ [("b".toList, 2)] :
        List (List Char × Nat))).map Prod.fst, isProtoKey d = false) ∧
    (((rrfFuse 60 [("a".toList, 1)] [("b".toList, 2)]).map Prod.fst).Nodup ∧
    (∀ d : List Char,
        d ∈ (rrfFuse 60 [("a".toList, 1)] [("b".toList, 2)]).map Prod.fst ↔
        d ∈ (([("a".toList, 1)] ++ [("b".toList, 2)] :
          List (List Char × Nat))).map Prod.fst) ∧
    (∀ p ∈ rrfFuse 60 [("a".toList, 1)] [("b".toList, 2)],
        p.2 = JsValue.num
          (((([("a".toList, 1)] ++ [("b".toList, 2)] :
            List (List Char × Nat))).filter fun it => decide (it.1 = p.1)).map
              fun it => 1 / (60 + (it.2 : ℚ))).sum) ∧
    (rrfFuse 60 [("a".toList, 1)] [("b".toList, 2)]).Pairwise
      (fun a b => numScore b.2 ≤ numScore a.2)) := by
  have hpk : ∀ d ∈ (([("a".toList, 1)] ++ [("b".toList, 2)] :
      List (List Char × Nat))).map Prod.fst, isProtoKey d = false := by
    intro d hd
    fin_cases hd <;> decide
  exact ⟨hpk, rrfFuse_spec [("a".toList, 1)] [("b".toList, 2)] hpk⟩

/-! ### Agreement of the two RRF implementations (C5) -/

/-- Rename the keys of an association list. -/
def mapEntries (f : α → β) (m : List (α × ℚ)) : List (β × ℚ) :=
  m.map fun p => (f p.1, p.2)

/-- The ranked list that `search_hybrid.ts` feeds to `rrfFuse`: the document
at index `idxs[r]` carries the 1-based rank field `r + 1` (as produced by
`searchRanked`). -/
def rankedOf (docs : List (List Char)) (idxs : List Nat) : List (List Char × Nat) :=
  idxs.enum.map fun p => (docs.getD p.2 [], p.1 + 1)

/-- `insertDesc` only inspects scores, so it commutes with key renaming. -/
theorem insertDesc_mapEntries (f : α → β) (x : α × ℚ) :
    ∀ l : List (α × ℚ),
      insertDesc (fun p : β × ℚ => p.2) (f x.1, x.2) (mapEntries f l) =
        mapEntries f (insertDesc (fun p : α × ℚ => p.2) x l) := by
  intro l
  induction l with
  | nil => rfl
  | cons y ys ih =>
    show insertDesc _ _ ((f y.1, y.2) :: mapEntries f ys) = _
    rw [insertDesc, insertDesc]
    by_cases hxy : x.2 < y.2
    · rw [if_pos hxy, if_pos hxy, ih]
      rfl
    · rw [if_neg hxy, if_neg hxy]
      rfl

/-- `sortByKeyDesc` on scores commutes with key renaming. -/
theorem sortByKeyDesc_mapEntries (f : α → β) :
    ∀ l : List (α × ℚ),
      sortByKeyDesc (fun p : β × ℚ => p.2) (mapEntries f l) =
        mapEntries f (sortByKeyDesc (fun p : α × ℚ => p.2) l) := by
  intro l
  induction l with
  | nil => rfl
  | cons x xs ih =>
    show sortByKeyDesc _ ((f x.1, x.2) :: mapEntries f xs) = _
    rw [sortByKeyDesc, sortByKeyDesc, ih, insertDesc_mapEntries]

/-- Keys after a `bump` are the old keys or the bumped key. -/
theorem bump_keys_mem [DecidableEq α] (key a : α) (v : ℚ) (m : List (α × ℚ))
    (h : a ∈ (bump key v m).map Prod.fst) : a ∈ m.map Prod.fst ∨ a = key := by
  rw [bump_keys] at h
  by_cases hmem : key ∈ m.map Prod.fst
  · rw [if_pos hmem] at h
    exact Or.inl h
  · rw [if_neg hmem, List.mem_append, List.mem_singleton] at h
    exact h

/-- `bump` commutes with an injective key renaming. -/
theorem bump_mapEntries [DecidableEq α] [DecidableEq β] (f : α → β) (i : α) (v : ℚ) :
    ∀ m : List (α × ℚ), (∀ j ∈ m.map Prod.fst, f j = f i → j = i) →
      bump (f i) v (mapEntries f m) = mapEntries f (bump i v m) := by
  intro m
  induction m with
  | nil => intro _; rfl
  | cons p rest ih =>
    intro hinj
    show bump (f i) v ((f p.1, p.2) :: mapEntries f rest) = _
    rw [bump, bump]
    dsimp only
    by_cases hfp : f p.1 = f i
    · have hp : p.1 = i := hinj p.1 (by simp) hfp
      rw [if_pos hfp, if_pos hp]
      rfl
    · have hp : ¬ p.1 = i := fun h => hfp (h ▸ rfl)
      rw [if_neg hfp, if_neg hp]
      show (f p.1, p.2) :: bump (f i) v (mapEntries f rest) = _
      rw [ih (fun j hj hfj => hinj j (by simp [hj]) hfj)]
      rfl

/-- A fold of `bump`s commutes with a key renaming that is injective on all
keys involved. -/
theorem foldl_bump_mapEntries [DecidableEq α] [DecidableEq β] (f : α → β) :
    ∀ (ops : List (α × ℚ)) (m : List (α × ℚ)),
      (∀ a b, a ∈ m.map Prod.fst ++ ops.map Prod.fst →
        b ∈ m.map Prod.fst ++ ops.map Prod.fst → f a = f b → a = b) →
      (ops.map fun op => (f op.1, op.2)).foldl (fun acc op => bump op.1 op.2 acc)
          (mapEntries f m) =
        mapEntries f (ops.foldl (fun acc op => bump op.1 op.2 acc) m) := by
  intro ops
  induction ops with
  | nil => intro m _; rfl
  | cons op rest ih =>
    intro m hinj
    rw [List.map_cons, List.foldl_cons, List.foldl_cons]
    have hstep : bump (f op.1) op.2 (mapEntries f m) = mapEntries f (bump op.1 op.2 m) := by
      refine bump_mapEntries f op.1 op.2 m ?_
      intro j hj hfj
      exact hinj j op.1 (by simp [hj]) (by simp) hfj
    rw [hstep]
    refine ih (bump op.1 op.2 m) ?_
    intro a b ha hb hf
    have hsub : ∀ c, c ∈ (bump op.1 op.2 m).map Prod.fst ++ rest.map Prod.fst →
        c ∈ m.map Prod.fst ++ (op :: rest).map Prod.fst := by
      intro c hc
      rw [List.mem_append] at hc
      rcases hc with hc | hc
      · rcases bump_keys_mem op.1 c op.2 m hc with hc' | hc'
        · exact List.mem_append.mpr (Or.inl hc')
        · exact List.mem_append.mpr (Or.inr (by simp [hc']))
      · exact List.mem_append.mpr (Or.inr (by simp [hc]))
    exact hinj a b (hsub a ha) (hsub b hb) hf

/-- Core agreement of the two accumulations: the stable descending sort of
the string-keyed `Map`-style fold over the ranked lists equals the
`reciprocalRankFusion` entries with their indices mapped back to documents
(both insert first occurrences in the same order and award identical
contributions `1/(60 + rank) = 1/(60 + position + 1)`). -/
theorem rrf_sorted_fold_agree (docs : List (List Char)) (A B : List Nat)
    (hnd : docs.Nodup) (hA : ∀ i ∈ A, i < docs.length)
    (hB : ∀ i ∈ B, i < docs.length) :
    sortByKeyDesc (fun p : List Char × ℚ => p.2)
        ((rankedOf docs A ++ rankedOf docs B).foldl
          (fun m item => bump item.1 (1 / (60 + (item.2 : ℚ))) m) []) =
      (rcfEntries 60 [A, B]).map fun p => (docs.getD p.1 [], p.2) := by
  set f : Nat → List Char := fun i => docs.getD i [] with hf
  have hfinj : ∀ a b, a < docs.length → b < docs.length → f a = f b → a = b := by
    intro a b ha hb hfab
    have h1 : f a = docs[a] := by
      rw [hf]
      simp [List.getD_eq_getElem?_getD, List.getElem?_eq_getElem ha]
    have h2 : f b = docs[b] := by
      rw [hf]
      simp [List.getD_eq_getElem?_getD, List.getElem?_eq_getElem hb]
    rw [h1, h2] at hfab
    exact hnd.getElem_inj_iff.mp hfab
  set opsIdx : List (Nat × ℚ) :=
    (A.enum ++ B.enum).map (fun p => (p.2, 1 / (60 + (p.1 : ℚ) + 1))) with hopsIdx
  have hopskeys : opsIdx.map Prod.fst = A ++ B := by
    rw [hopsIdx, List.map_map, List.map_append]
    show (A.enum.map Prod.snd) ++ (B.enum.map Prod.snd) = A ++ B
    exact (congrArg (· ++ List.map Prod.snd B.enum) (List.enumFrom_map_snd 0 A)).trans
      (congrArg (A ++ ·) (List.enumFrom_map_snd 0 B))
  have hrcf : rcfEntries 60 [A, B] =
      sortByKeyDesc (fun p : Nat × ℚ => p.2)
        (opsIdx.foldl (fun acc op => bump op.1 op.2 acc) []) := by
    rw [rcfEntries]
    congr 1
    show List.foldl _ (List.foldl _ [] A.enum) B.enum = _
    rw [← List.foldl_append, hopsIdx, List.foldl_map]
  have hfoldeq : (rankedOf docs A ++ rankedOf docs B).foldl
      (fun m item => bump item.1 (1 / (60 + (item.2 : ℚ))) m) [] =
      (opsIdx.map fun op => (f op.1, op.2)).foldl
        (fun acc op => bump op.1 op.2 acc) [] := by
    rw [rankedOf, rankedOf, ← List.map_append, hopsIdx, List.map_map]
    simp only [List.foldl_map, Function.comp]
    push_cast [add_assoc]
    rfl
  have hinjAll : ∀ a b, a ∈ (([] : List (ℕ × ℚ)).map Prod.fst) ++ opsIdx.map Prod.fst →
      b ∈ (([] : List (ℕ × ℚ)).map Prod.fst) ++ opsIdx.map Prod.fst →
      f a = f b → a = b := by
    intro a b ha hb hfab
    rw [List.map_nil, List.nil_append, hopskeys, List.mem_append] at ha hb
    have ha' : a < docs.length := by
      rcases ha with h | h
      · exact hA a h
      · exact hB a h
    have hb' : b < docs.length := by
      rcases hb with h | h
      · exact hA b h
      · exact hB b h
    exact hfinj a b ha' hb' hfab
  have hstep := foldl_bump_mapEntries f opsIdx [] hinjAll
  rw [show mapEntries f ([] : List (Nat × ℚ)) = [] from rfl] at hstep
  rw [hfoldeq, hstep, sortByKeyDesc_mapEntries, ← hrcf]
  rfl

/-- C5 (counterexample): the two implementations do not always produce the
same document ordering. With corpus `["b", "5"]`, `A = [0]`, `B = [1]`,
both documents tie at `1/61`; `Object.entries` fronts the array-index-like
key `"5"` before the insertion-ordered `"b"` and the stable sort keeps the
tie, so `rrfFuse` orders `"5"` before `"b"`, while the `Map`-based
`reciprocalRankFusion` keeps insertion order, `"b"` before `"5"`. -/
theorem rrf_orderings_differ :
    (rrfFuse 60 (rankedOf [['b'], ['5']] [0]) (rankedOf [['b'], ['5']] [1])).map
        Prod.fst = [['5'], ['b']] ∧
    (reciprocalRankFusion 60 [[0], [1]]).map
        (fun i => ([['b'], ['5']] : List (List Char)).getD i []) = [['b'], ['5']] ∧
    ¬ (rrfFuse 60 (rankedOf [['b'], ['5']] [0]) (rankedOf [['b'], ['5']] [1])).map
          Prod.fst =
        (reciprocalRankFusion 60 [[0], [1]]).map
          (fun i => ([['b'], ['5']] : List (List Char)).getD i []) := by
  have hq : jsScoreLt (JsValue.num (1 / (60 + ((1 : Nat) : ℚ))))
      (JsValue.num (1 / (60 + ((1 : Nat) : ℚ)))) = false :=
    decide_eq_false (lt_irrefl _)
  have hfuse : rrfFuse 60 (rankedOf [['b'], ['5']] [0]) (rankedOf [['b'], ['5']] [1]) =
      [(['5'], JsValue.num (1 / (60 + ((1 : Nat) : ℚ)))),
        (['b'], JsValue.num (1 / (60 + ((1 : Nat) : ℚ))))] := by
    rw [show rrfFuse 60 (rankedOf [['b'], ['5']] [0]) (rankedOf [['b'], ['5']] [1]) =
        insertEntryDesc (['5'], JsValue.num (1 / (60 + ((1 : Nat) : ℚ))))
          [(['b'], JsValue.num (1 / (60 + ((1 : Nat) : ℚ))))] from rfl]
    rw [insertEntryDesc]
    dsimp only
    rw [hq]
    rfl
  have hrcfe : rcfEntries 60 [[0], [1]] =
      [(0, (1 : ℚ) / (60 + ((0 : Nat) : ℚ) + 1)),
        (1, (1 : ℚ) / (60 + ((0 : Nat) : ℚ) + 1))] := by
    rw [show rcfEntries 60 [[0], [1]] =
        insertDesc (fun p : Nat × ℚ => p.2) (0, (1 : ℚ) / (60 + ((0 : Nat) : ℚ) + 1))
          [(1, (1 : ℚ) / (60 + ((0 : Nat) : ℚ) + 1))] from rfl]
    rw [insertDesc]
    dsimp only
    rw [if_neg (lt_irrefl ((1 : ℚ) / (60 + ((0 : Nat) : ℚ) + 1)))]
  refine ⟨?_, ?_, ?_⟩
  · rw [hfuse]
    decide
  · rw [reciprocalRankFusion, hrcfe]
    decide
  · rw [hfuse, reciprocalRankFusion, hrcfe]
    decide

/-- C5 (amended): the two reciprocal-rank-fusion implementations agree on
every corpus of distinct documents none of which is named like an
`Object.prototype` property or like an array-index string. For such a
corpus and in-range index lists `A`, `B`: `rrfFuse` from
`search_hybrid.ts`, applied to the ranked lists whose rank fields are the
1-based positions, returns exactly the entries of `reciprocalRankFusion`
from `cross_encoder_reranking.ts` applied to the raw 0-based index
arrays — the same (numeric) fused score for every document and the same
document ordering. (With an array-index-like document, `Object.entries`
fronts its key and ties can order differently — `rrf_orderings_differ` —
and prototype-named documents are mishandled by the plain-object record
altogether.) -/
theorem rrf_implementations_agree (docs : List (List Char)) (A B : List Nat)
    (hnd : docs.Nodup) (hA : ∀ i ∈ A, i < docs.length)
    (hB : ∀ i ∈ B, i < docs.length)
    (hkeys : ∀ d ∈ docs, isProtoKey d = false ∧ isArrayIndexKey d = false) :
    rrfFuse 60 (rankedOf docs A) (rankedOf docs B) =
      (rcfEntries 60 [A, B]).map fun p => (docs.getD p.1 [], JsValue.num p.2) := by
  have hdocmem : ∀ i : Nat, i < docs.length → docs.getD i [] ∈ docs := by
    intro i hi
    have hgd : docs.getD i [] = docs[i] := by
      simp [List.getD_eq_getElem?_getD, List.getElem?_eq_getElem hi]
    rw [hgd]
    exact List.getElem_mem hi
  have hitemsA : ∀ it ∈ rankedOf docs A, it.1 ∈ docs := by
    intro it hit
    rw [rankedOf] at hit
    rcases List.mem_map.mp hit with ⟨p, hp, rfl⟩
    have hpA : p.2 ∈ A := by
      have hms := List.mem_map_of_mem Prod.snd hp
      have hsnd : List.map Prod.snd A.enum = A := List.enumFrom_map_snd 0 A
      rwa [hsnd] at hms
    exact hdocmem p.2 (hA p.2 hpA)
  have hitemsB : ∀ it ∈ rankedOf docs B, it.1 ∈ docs := by
    intro it hit
    rw [rankedOf] at hit
    rcases List.mem_map.mp hit with ⟨p, hp, rfl⟩
    have hpB : p.2 ∈ B := by
      have hms := List.mem_map_of_mem Prod.snd hp
      have hsnd : List.map Prod.snd B.enum = B := List.enumFrom_map_snd 0 B
      rwa [hsnd] at hms
    exact hdocmem p.2 (hB p.2 hpB)
  have hitemdocs : ∀ it ∈ rankedOf docs A ++ rankedOf docs B, it.1 ∈ docs := by
    intro it hit
    rcases List.mem_append.mp hit with h | h
    · exact hitemsA it h
    · exact hitemsB it h
  have hitems : ∀ it ∈ rankedOf docs A ++ rankedOf docs B, isProtoKey it.1 = false :=
    fun it hit => (hkeys it.1 (hitemdocs it hit)).1
  have hfold := foldl_recAddScore_eq_bump 60 (rankedOf docs A ++ rankedOf docs B) []
    hitems
  rw [show numEntries [] = ([] : List (List Char × JsValue)) from rfl] at hfold
  have hFqkeys : ∀ q ∈ numEntries
      ((rankedOf docs A ++ rankedOf docs B).foldl
        (fun acc it => bump it.1 (1 / (60 + (it.2 : ℚ))) acc) []),
      isArrayIndexKey q.1 = false := by
    intro q hq
    rcases List.mem_map.mp hq with ⟨r, hr, rfl⟩
    have hkey : r.1 ∈ ((rankedOf docs A ++ rankedOf docs B).foldl
        (fun acc it => bump it.1 (1 / (60 + (it.2 : ℚ))) acc) []).map Prod.fst :=
      List.mem_map_of_mem Prod.fst hr
    have hFqops2 : (rankedOf docs A ++ rankedOf docs B).foldl
        (fun acc it => bump it.1 (1 / (60 + (it.2 : ℚ))) acc) [] =
        ((rankedOf docs A ++ rankedOf docs B).map
          fun it => (it.1, 1 / (60 + (it.2 : ℚ)))).foldl
            (fun acc op => bump op.1 op.2 acc) [] := by
      rw [List.foldl_map]
    rw [hFqops2, foldl_bump_keys_mem] at hkey
    rcases hkey with hkey | hkey
    · simp at hkey
    · rw [List.map_map] at hkey
      rcases List.mem_map.mp hkey with ⟨it, hit, heq⟩
      have hd : it.1 ∈ docs := hitemdocs it hit
      rw [show (Prod.fst ∘ fun it : List Char × Nat =>
        (it.1, 1 / (60 + (it.2 : ℚ)))) it = it.1 from rfl] at heq
      rw [← heq]
      exact (hkeys it.1 hd).2
  rw [rrfFuse, hfold, jsEntries_of_no_index _ hFqkeys, sortEntriesDesc_numEntries,
    rrf_sorted_fold_agree docs A B hnd hA hB]
  rw [numEntries, List.map_map]
  rfl

/-! ## Script entry points and error handling (C2)

`search_hybrid.ts` (lines 63–65) and `cross_encoder_reranking.ts` (lines
222–224) end in `main().catch(console.error)`; `bm25_retrieval.ts` (line
160) ends in a top-level `await main()`. The embedding encodes the Node.js
semantics of these two entry shapes: a rejection reaching
`.catch(console.error)` is a *handled* rejection — the handler logs the
error and the process, having nothing further to run, exits with code 0;
an error escaping a top-level `await` is an unhandled error — Node logs it
and exits with code 1. -/

/-- Outcome of a script's `main()` promise. -/
inductive MainResult where
  | ok : MainResult
  | error (msg : String) : MainResult
deriving DecidableEq, Repr

/-- `(console error output, exit code)` of a script ending in
`main().catch(console.error)`: the error is logged, the rejection is
thereby handled, and the process exits 0. -/
def catchStyleRun : MainResult → List String × Nat
  | .ok => ([], 0)
  | .error msg => ([msg], 0)

/-- `(console error output, exit code)` of a script ending in top-level
`await main()`: the error is logged as an uncaught exception and the
process exits 1. -/
def topLevelAwaitRun : MainResult → List String × Nat
  | .ok => ([], 0)
  | .error msg => ([msg], 1)

/-- C2 (counterexample): "the process exits with a non-zero exit code" is
false for the scripts the claim cites. When `main()` of
`search_hybrid.ts` or `cross_encoder_reranking.ts` rejects (e.g. a failed
API call), `main().catch(console.error)` logs the error but the process
exits with code 0, not non-zero. -/
theorem script_error_exit_claim_false :
    (catchStyleRun (MainResult.error "API request failed")).1 =
        ["API request failed"] ∧
      (catchStyleRun (MainResult.error "API request failed")).2 = 0 ∧
      ¬ (catchStyleRun (MainResult.error "API request failed")).2 ≠ 0 := by
  refine ⟨rfl, rfl, ?_⟩
  decide

/-- C2 (amended): whenever a script's `main` throws, the error is logged to
the console; scripts ending in `main().catch(console.error)` (such as
`search_hybrid.ts` and `cross_encoder_reranking.ts`) then exit with code 0,
while scripts using top-level `await main()` (such as `bm25_retrieval.ts`)
exit non-zero (code 1); a successful `main` logs no error and exits 0. -/
theorem script_error_handling (msg : String) :
    catchStyleRun (MainResult.error msg) = ([msg], 0) ∧
    topLevelAwaitRun (MainResult.error msg) = ([msg], 1) ∧
    catchStyleRun MainResult.ok = ([], 0) ∧
    topLevelAwaitRun MainResult.ok = ([], 0) :=
  ⟨rfl, rfl, rfl, rfl⟩

/-! ## Request issuance order of `rerankWithCrossEncoder` (C7)

`cross_encoder_reranking.ts`, lines 160–177:

```
const embeddingPromises = candidates.map(async (candidate) => {
    ...
    const response = await openai.embeddings.create({...});
    return response.data[0].embedding;
});
const queryResponse = await openai.embeddings.create({ input: query });
...
const combinedEmbeddings = await Promise.all(embeddingPromises);
```

JS runs each async arrow synchronously up to its first `await`, and the
single-threaded event loop processes no response before the surrounding
synchronous code suspends: the `map` issues one embedding request per
candidate, the query request is issued next, and only then does `main`
suspend, so with `n` candidates `n + 1` requests are in flight before any
completes. Responses then complete in a network-dependent order. -/

/-- A network request event: a request is issued, or a response completes. -/
inductive ReqEvent where
  | issue (id : Nat)
  | complete (id : Nat)
deriving DecidableEq, Repr

/-- Walk a trace tracking the current number of in-flight requests (`cur`)
and the maximum seen after any event (`best`). -/
def maxInFlightGo : Nat → Nat → List ReqEvent → Nat
  | _, best, [] => best
  | cur, best, e :: es =>
    let cur' := match e with
      | ReqEvent.issue _ => cur + 1
      | ReqEvent.complete _ => cur - 1
    maxInFlightGo cur' (max best cur') es

/-- Maximum number of simultaneously in-flight requests over a trace. -/
def maxInFlight (t : List ReqEvent) : Nat := maxInFlightGo 0 0 t

/-- The request trace of `rerankWithCrossEncoder` with `n` candidates:
requests `0, ..., n-1` (one per candidate, issued during the `map`), then
request `n` (the query embedding), then the responses in some
network-dependent `completionOrder`. -/
def rerankTrace (n : Nat) (completionOrder : List Nat) : List ReqEvent :=
  (List.range n).map ReqEvent.issue ++ [ReqEvent.issue n] ++
    completionOrder.map ReqEvent.complete

/-- The tracked maximum never decreases. -/
theorem maxInFlightGo_ge_best :
    ∀ (t : List ReqEvent) (cur best : Nat), best ≤ maxInFlightGo cur best t := by
  intro t
  induction t with
  | nil => intro cur best; exact Nat.le_refl best
  | cons e es ih =>
    intro cur best
    cases e with
    | issue id =>
      exact le_trans (le_max_left best (cur + 1)) (ih (cur + 1) (max best (cur + 1)))
    | complete id =>
      exact le_trans (le_max_left best (cur - 1)) (ih (cur - 1) (max best (cur - 1)))

/-- A block of consecutive issue events pushes the maximum to at least the
entry count plus the block length. -/
theorem maxInFlightGo_issues (rest : List ReqEvent) :
    ∀ (ids : List Nat) (cur best : Nat), cur ≤ best →
      cur + ids.length ≤ maxInFlightGo cur best (ids.map ReqEvent.issue ++ rest) := by
  intro ids
  induction ids with
  | nil =>
    intro cur best hcb
    simpa using le_trans hcb (maxInFlightGo_ge_best rest cur best)
  | cons id ids ih =>
    intro cur best hcb
    rw [List.map_cons, List.cons_append, maxInFlightGo]
    have h := ih (cur + 1) (max best (cur + 1)) (le_max_right _ _)
    calc cur + (id :: ids).length = (cur + 1) + ids.length := by simp; omega
      _ ≤ _ := h

/-- C7 (counterexample): "no script issues API calls in parallel" is false.
With 2 candidates, `rerankWithCrossEncoder` has 3 embedding requests in
flight simultaneously (the two candidate requests and the query request are
all issued before any response is awaited), whatever order the responses
come back in. -/
theorem rerank_parallel_claim_false :
    maxInFlight (rerankTrace 2 [0, 1, 2]) = 3 ∧
      ¬ maxInFlight (rerankTrace 2 [0, 1, 2]) ≤ 1 := by
  refine ⟨?_, ?_⟩ <;> decide

/-- C7 (amended): the only asynchrony is awaiting network responses and no
mutable state is shared across concurrent operations, but the calls are not
all awaited one at a time: `rerankWithCrossEncoder` in
`cross_encoder_reranking.ts` issues its per-candidate embedding requests
and the query embedding request concurrently via `Promise.all` — with `n`
candidates, `n + 1` requests are in flight at once, for every completion
order of the responses. -/
theorem rerank_parallel_requests (n : Nat) (completionOrder : List Nat) :
    n + 1 ≤ maxInFlight (rerankTrace n completionOrder) := by
  have h := maxInFlightGo_issues (completionOrder.map ReqEvent.complete)
    ((List.range n) ++ [n]) 0 0 (Nat.le_refl 0)
  simp only [List.map_append, List.length_append, List.length_range,
    List.length_cons, List.length_nil, Nat.zero_add] at h
  rw [maxInFlight, rerankTrace, List.append_assoc]
  simpa using h

/-- Witness for `rrf_implementations_agree` on the corpus `["x", "y"]`
(distinct, neither a prototype property name nor an array-index string)
with index lists `[0, 1]` and `[1]`. -/
theorem rrf_implementations_agree_witness :
    (["x".toList, "y".toList] : List (List Char)).Nodup ∧
    (∀ i ∈ [0, 1], i < (["x".toList, "y".toList] : List (List Char)).length) ∧
    (∀ i ∈ [1], i < (["x".toList, "y".toList] : List (List Char)).length) ∧
    (∀ d ∈ (["x".toList, "y".toList] : List (List Char)),
      isProtoKey d = false ∧ isArrayIndexKey d = false) ∧
    rrfFuse 60 (rankedOf ["x".toList, "y".toList] [0, 1])
        (rankedOf ["x".toList, "y".toList] [1]) =
      (rcfEntries 60 [[0, 1], [1]]).map
        (fun p => ((["x".toList, "y".toList] : List (List Char)).getD p.1 [],
          JsValue.num p.2)) := by
  have h1 : ∀ i ∈ [0, 1], i < (["x".toList, "y".toList] : List (List Char)).length := by
    intro i hi
    fin_cases hi <;> decide
  have h2 : ∀ i ∈ [1], i < (["x".toList, "y".toList] : List (List Char)).length := by
    intro i hi
    fin_cases hi
    decide
  have h3 : ∀ d ∈ (["x".toList, "y".toList] : List (List Char)),
      isProtoKey d = false ∧ isArrayIndexKey d = false := by
    intro d hd
    fin_cases hd <;> exact ⟨by decide, by decide⟩
  exact ⟨by decide, h1, h2, h3,
    rrf_implementations_agree ["x".toList, "y".toList] [0, 1] [1] (by decide) h1 h2 h3⟩

/-! ## `ProductionChunkingPipeline` and `DocumentChunk` (C10)

`ProductionChunkingPipeline.processDocument` caches by the MD5 hex digest
of the content (`crypto.createHash('md5').update(content).digest('hex')`),
returning the cached chunk list unchanged on a hit; on a miss it applies
the configured chunking strategy, builds `DocumentChunk`s via
`DocumentChunk.fromDocument`, keeps only chunks with
`metadata.word_count >= 20`, stores and returns the filtered list.
In the embedding the digest is an abstract function `hash : String →
String` (only its determinism matters here), the strategy dispatch
(`semanticChunking` / `structureAwareChunking` / `fixedSizeChunking`
applied to the content) is the abstract `chunker : String → List String`,
and `new Date().toISOString()` is the parameter `createdAt`.
`DocumentChunk.validateMetadata` checks that `source`, `chunk_id` and
`created_at` are present, which `fromDocument` always guarantees, so the
constructor never throws and the check needs no further modelling. -/

/-- The `Metadata` record of a `DocumentChunk` (the `section` field is
spelled `sectionName`, `section` being reserved in Lean). -/
structure ChunkMetadata where
  source : String
  chunk_id : String
  created_at : String
  chunk_index : Nat
  total_chunks : Nat
  document_type : Option String
  author : Option String
  last_modified : Option String
  sectionName : Option String
  language : String
  word_count : Nat
  char_count : Nat
deriving DecidableEq, Repr

/-- A production chunk: content plus metadata. -/
structure DocumentChunk where
  content : String
  metadata : ChunkMetadata
deriving DecidableEq, Repr

/-- The domain-specific fields read out of the `extraMetadata` record by
`DocumentChunk.fromDocument`. -/
structure ExtraMetadata where
  document_type : Option String
  author : Option String
  last_modified : Option String
  sectionName : Option String
  language : Option String
deriving DecidableEq, Repr

/-- `content.split(/\s+/).length`: the word count stored by `fromDocument`
(all split fields count, including empty boundary fields, so it is at
least 1). -/
def wordCountJs (content : String) : Nat :=
  (splitWs content.toList).length

/-- `DocumentChunk.fromDocument(content, source, chunkIndex, totalChunks,
extraMetadata)` at time `createdAt`; `extraMetadata.language || 'en'`
falls back to `"en"` for a missing or empty language. -/
def fromDocument (content source : String) (chunkIndex totalChunks : Nat)
    (extra : ExtraMetadata) (createdAt : String) : DocumentChunk :=
  { content := content
    metadata :=
      { source := source
        chunk_id := source ++ "_" ++ toString chunkIndex
        created_at := createdAt
        chunk_index := chunkIndex
        total_chunks := totalChunks
        document_type := extra.document_type
        author := extra.author
        last_modified := extra.last_modified
        sectionName := extra.sectionName
        language :=
          match extra.language with
          | some l => if l = "" then "en" else l
          | none => "en"
        word_count := wordCountJs content
        char_count := content.length } }

/-- Lookup in the `chunkCache` record (`docHash in this.chunkCache`). -/
def lookupCache (h : String) :
    List (String × List DocumentChunk) → Option (List DocumentChunk)
  | [] => none
  | p :: rest => if p.1 = h then some p.2 else lookupCache h rest

/-- The `DocumentChunk`s built from the raw chunks of a document
(`rawChunks.map((chunk, i) => DocumentChunk.fromDocument(chunk, source, i,
rawChunks.length, metadata))`). -/
def chunkListOf (chunker : String → List String) (content source : String)
    (extra : ExtraMetadata) (createdAt : String) : List DocumentChunk :=
  (chunker content).enum.map fun p =>
    fromDocument p.2 source p.1 (chunker content).length extra createdAt

/-- Step 4 of `processDocument`: quality filtering
(`chunks.filter(c => (c.metadata.word_count || 0) >= 20)`; `word_count` is
always at least 1, so the `|| 0` fallback is the identity). -/
def filteredChunksOf (chunker : String → List String) (content source : String)
    (extra : ExtraMetadata) (createdAt : String) : List DocumentChunk :=
  (chunkListOf chunker content source extra createdAt).filter fun c =>
    20 ≤ c.metadata.word_count

/-- `ProductionChunkingPipeline.processDocument(content, source, metadata)`:
returns the chunk list and the updated cache. -/
def processDocument (hash : String → String) (chunker : String → List String)
    (createdAt : String) (cache : List (String × List DocumentChunk))
    (content source : String) (extra : ExtraMetadata) :
    List DocumentChunk × List (String × List DocumentChunk) :=
  match lookupCache (hash content) cache with
  | some chunks => (chunks, cache)
  | none =>
    (filteredChunksOf chunker content source extra createdAt,
      cache ++ [(hash content,
        filteredChunksOf chunker content source extra createdAt)])

/-- C10 (confirmed): `processDocument` caches by content hash only. A second
call on the same pipeline with identical content and a *different* source
and metadata returns exactly the first call's chunk list — every chunk
still carrying the first call's source and metadata fields — and on a cache
miss every returned chunk has `word_count ≥ 20`. -/
theorem processDocument_cache_spec (hash : String → String)
    (chunker : String → List String) (t1 t2 content source1 source2 : String)
    (extra1 extra2 : ExtraMetadata) :
    (processDocument hash chunker t2
        (processDocument hash chunker t1 [] content source1 extra1).2
        content source2 extra2).1 =
      (processDocument hash chunker t1 [] content source1 extra1).1 ∧
    ∀ c ∈ (processDocument hash chunker t1 [] content source1 extra1).1,
      c.metadata.source = source1 ∧
      c.metadata.document_type = extra1.document_type ∧
      c.metadata.author = extra1.author ∧
      c.metadata.sectionName = extra1.sectionName ∧
      20 ≤ c.metadata.word_count := by
  have hfirst : processDocument hash chunker t1 [] content source1 extra1 =
      (filteredChunksOf chunker content source1 extra1 t1,
        [(hash content, filteredChunksOf chunker content source1 extra1 t1)]) := by
    rfl
  constructor
  · rw [hfirst]
    show (processDocument hash chunker t2
      [(hash content, filteredChunksOf chunker content source1 extra1 t1)]
      content source2 extra2).1 = _
    rw [processDocument, lookupCache]
    rw [if_pos rfl]
  · intro c hc
    rw [hfirst] at hc
    have hc' := hc
    rw [filteredChunksOf] at hc'
    have hfilter := List.of_mem_filter hc'
    have hmem := List.mem_of_mem_filter hc'
    rw [chunkListOf] at hmem
    rcases List.mem_map.mp hmem with ⟨p, _, rfl⟩
    refine ⟨rfl, rfl, rfl, rfl, ?_⟩
    exact of_decide_eq_true hfilter

end TsExamples
